import Mathlib

set_option linter.dupNamespace false

/-!
# zuccacm-server: contest rows and roster aggregation

A shallow embedding of `handler/user.go` (`getUserContests`, `getUsers`) and of
`db/user.go` (`GetOfficialUsers`), with the properties of the aggregation engine
proved over it.

Conventions of the embedding.

* Go `int` is `Int`.  Every counter of the embedded code counts elements of a
  slice that is held in memory, so the 64-bit wrap-around is never reached.
* `db.Datetime` is an instant, embedded as its number of seconds (`Int`).
* Go `string` is `String`; Go compares strings bytewise, which on UTF-8 text is
  the order of the code points, the order of `String` (`strLess`).  In the sorts
  `a.GroupName > b.GroupName` is `strLess b.GroupName a.GroupName`.
* A Go map is an association list with unique keys (`GoMap`).  Reading an absent
  key gives `none` (Go: the zero value, `nil` for slices and pointers).  The
  order in which `range` visits a map is not fixed by Go: it is a parameter
  `rangeOrder` of the functions that range over a map.
* A run-time panic (nil pointer dereference, index out of range) is `none`.
-/

/-! ## Go maps -/

/-- Go map as an association list; `mapSet` keeps the keys unique. -/
abbrev GoMap (κ : Type) (ν : Type) := List (κ × ν)

/-- Go `m[k]`: the stored value, `none` when the key is absent. -/
def mapGet {κ ν : Type} [DecidableEq κ] : GoMap κ ν → κ → Option ν
  | [], _ => none
  | (k1, v) :: m, k => if k1 = k then some v else mapGet m k

/-- Go `m[k] = v`: overwrite the entry of `k`, or add one. -/
def mapSet {κ ν : Type} [DecidableEq κ] : GoMap κ ν → κ → ν → GoMap κ ν
  | [], k, v => [(k, v)]
  | (k1, v1) :: m, k, v => if k1 = k then (k, v) :: m else (k1, v1) :: mapSet m k v

/-- The values held by a map, in the order of the association list. -/
def mapValues {κ ν : Type} (m : GoMap κ ν) : List ν := m.map Prod.snd

/-- The keys held by a map, in the order of the association list. -/
def mapKeys {κ ν : Type} (m : GoMap κ ν) : List κ := m.map Prod.fst

/-! ## Go strings -/

/-- Go `a < b` on strings.  Go compares the bytes; on UTF-8 text that is the
order of the code points, the order `<` of `String` (see `strLess_iff`).  It is
written over the character lists so that it evaluates by reduction. -/
def strLess (a b : String) : Bool := decide (a.data < b.data)

/-! ## Go standard library: sort -/

namespace sort

/-- Go `sort.SliceStable(x, less)`: the stable sort of `x` by `less`, as a
stable insertion sort.  An element moves in front of the already sorted later
elements only past those strictly `less` than it, so elements that `less` does
not separate keep their original order.  For a strict weak order `less` the
stable sorted arrangement of a slice is unique, so this is the result of the
library routine (insertion sort on blocks, then stable merges). -/
def SliceStable {α : Type} (less : α → α → Bool) (x : List α) : List α :=
  x.insertionSort (fun a b => less b a = false)

end sort

/-! ## Package utils -/

namespace utils

/-- Modelled from the spec: `utils.Max` (package `utils` is not part of the
sources at hand), the larger of two ints, which is what §4.3 needs for
`maxProblems`. -/
def Max (a b : Int) : Int := if a > b then a else b

end utils

/-! ## Package db -/

namespace db

/-- The `db.User` record. -/
structure User where
  Username : String
  Nickname : String
  CfRating : Int
  IsEnable : Bool
  IsAdmin : Bool
  IdCard : String
  Phone : String
  QQ : String
  TShirt : String
  deriving DecidableEq, Repr

/-- The `db.Award` record. -/
structure Award where
  Username : String
  Medal : Int
  Award : String
  XcpcId : Int
  deriving DecidableEq, Repr

/-- The `db.userGroup` record. -/
structure userGroup where
  GroupId : Int
  GroupName : String
  Users : List User
  deriving DecidableEq, Repr

/-- Modelled from the spec: `db.Problem` is declared outside the sources at hand;
the fields are those `getUserContests` reads (the ProblemKey of §3). -/
structure Problem where
  OjId : Int
  Pid : String
  deriving DecidableEq, Repr

/-- Modelled from the spec: `db.Contest` is declared outside the sources at hand;
the fields are those `getUserContests` reads (Contest of §3). -/
structure Contest where
  Id : Int
  Name : String
  StartTime : Int
  Duration : Int
  Problems : List Problem
  deriving DecidableEq, Repr

/-- Modelled from the spec: `db.Submission` is declared outside the sources at
hand; the fields are those `getUserContests` reads (Submission of §3). -/
structure Submission where
  Username : String
  OjId : Int
  Pid : String
  IsAccepted : Bool
  CreateTime : Int
  deriving DecidableEq, Repr

/-- The anonymous row type of the membership query in `GetOfficialUsers`. -/
structure memberRow where
  Username : String
  Nickname : String
  CfRating : Int
  IsEnable : Bool
  IsAdmin : Bool
  GroupId : Int
  deriving DecidableEq, Repr

/-- Lines 134-138 of `GetOfficialUsers`: the record `&userGroup{...}` of a row
of `GetOfficialGroups`, with `Users: make([]User, 0)`. -/
def newGrp (row : userGroup) : userGroup :=
  { GroupId := row.GroupId, GroupName := row.GroupName, Users := [] }

/-- Lines 131-139 of `GetOfficialUsers`: `grp[row.GroupId] = &userGroup{...}` for
every row of `GetOfficialGroups`. -/
def initGrp (groups : List userGroup) : GoMap Int userGroup :=
  groups.foldl (fun grp row => mapSet grp row.GroupId (newGrp row)) []

/-- Lines 159-165 of `GetOfficialUsers`: the `User` built from a membership row;
the fields the query does not select keep their zero value. -/
def memberUser (x : memberRow) : User :=
  { Username := x.Username
    Nickname := x.Nickname
    CfRating := x.CfRating
    IsEnable := x.IsEnable
    IsAdmin := x.IsAdmin
    IdCard := ""
    Phone := ""
    QQ := ""
    TShirt := "" }

/-- Lines 158-166 of `GetOfficialUsers`: `grp[x.GroupId].Users = append(...)`;
`grp[x.GroupId]` of an absent group is a nil pointer, its dereference panics. -/
def addMember (grp : GoMap Int userGroup) (x : memberRow) : Option (GoMap Int userGroup) :=
  match mapGet grp x.GroupId with
  | none => none
  | some g =>
    some (mapSet grp x.GroupId { g with Users := g.Users ++ [memberUser x] })

/-- The function `GetOfficialUsers`, from the rows `GetOfficialGroups` returns
(`groups`), the rows of the membership query (`data`) and the order in which
`range grp` visits the map. -/
def GetOfficialUsers (rangeOrder : List userGroup → List userGroup)
    (groups : List userGroup) (data : List memberRow) : Option (List userGroup) :=
  match data.foldlM addMember (initGrp groups) with
  | none => none
  | some grp =>
    let ret := (rangeOrder (mapValues grp)).filter (fun v => decide (v.Users.length > 0))
    some (sort.SliceStable (fun a b => strLess b.GroupName a.GroupName) ret)

end db

/-! ## Package handler: getUserContests -/

namespace handler

/-- Modelled from the spec: `submissionInfo` is declared outside the sources at
hand; `getUserContests` builds it from `(s.IsAccepted, s.CreateTime)`. -/
structure submissionInfo where
  IsAccepted : Bool
  CreateTime : Int
  deriving DecidableEq, Repr

/-- Modelled from the spec: `problemResult` is declared outside the sources at
hand; `getUserContests` reads its `AcceptedTime` (ProblemResult of §3). -/
structure problemResult where
  AcceptedTime : Int
  deriving DecidableEq, Repr

/-- The zero value of `problemResult`, what `make([]problemResult, n)` holds. -/
def problemResult.zero : problemResult := ⟨0⟩

/-- The local type `Key` of `getUserContests`. -/
structure Key where
  OjId : Int
  Pid : String
  deriving DecidableEq, Repr

/-- The local type `Row` of `getUserContests`. -/
structure Row where
  ContestId : Int
  ContestName : String
  StartTime : Int
  Duration : Int
  Solved : Int
  Problems : List db.Problem
  ProblemResults : List problemResult
  deriving DecidableEq, Repr

/-- The anonymous struct `data` of `getUserContests`. -/
structure ContestsData where
  MaxProblems : Int
  Contests : List Row
  deriving DecidableEq, Repr

/-- The type of `calcProblemResult(entries, start, duration)`. -/
abbrev Calc := List submissionInfo → Int → Int → problemResult

/-- Lines 130-137: the row appended for contest `c`; `Solved` is left at its
zero value, `ProblemResults` is zero-valued of the length of `Problems`. -/
def newRow (c : db.Contest) : Row :=
  { ContestId := c.Id
    ContestName := c.Name
    StartTime := c.StartTime
    Duration := c.Duration
    Solved := 0
    Problems := c.Problems
    ProblemResults := List.replicate c.Problems.length problemResult.zero }

/-- Lines 130-138: the body of the loop over `contests`. -/
def initStep (data : ContestsData) (c : db.Contest) : ContestsData :=
  { MaxProblems := utils.Max data.MaxProblems (c.Problems.length : Int)
    Contests := data.Contests ++ [newRow c] }

/-- Lines 119-139: `data` after the loop over `contests`. -/
def initRows (contests : List db.Contest) : ContestsData :=
  contests.foldl initStep { MaxProblems := 0, Contests := [] }

/-- Lines 147-148: `mp[key] = append(mp[key], submissionInfo{...})`; the absent
key reads as the nil slice. -/
def indexStep (mp : GoMap Key (List submissionInfo)) (s : db.Submission) :
    GoMap Key (List submissionInfo) :=
  let key : Key := ⟨s.OjId, s.Pid⟩
  mapSet mp key (((mapGet mp key).getD []) ++ [⟨s.IsAccepted, s.CreateTime⟩])

/-- Lines 145-149: the index `mp` of the submissions by `(OjId, Pid)`. -/
def indexSubmissions (submissions : List db.Submission) : GoMap Key (List submissionInfo) :=
  submissions.foldl indexStep []

/-- Line 152, right-hand side: `calcProblemResult(mp[Key{p.OjId, p.Pid}],
c.StartTime, c.Duration)`; the absent key reads as the nil slice. -/
def resultOf (calcFn : Calc) (mp : GoMap Key (List submissionInfo)) (c : Row)
    (p : db.Problem) : problemResult :=
  calcFn ((mapGet mp ⟨p.OjId, p.Pid⟩).getD []) c.StartTime c.Duration

/-- Lines 152-155: the body of the inner loop at index `j`, problem `p`, for the
contest copy `c` made when the outer loop entered the row. -/
def fillStep (calcFn : Calc) (mp : GoMap Key (List submissionInfo)) (c : Row)
    (r : Row) (jp : Nat × db.Problem) : Row :=
  let r1 : Row :=
    { r with ProblemResults := List.set r.ProblemResults jp.1 (resultOf calcFn mp c jp.2) }
  if (r1.ProblemResults.getD jp.1 problemResult.zero).AcceptedTime ≠ -1 then
    { r1 with Solved := r1.Solved + 1 }
  else r1

/-- Lines 151-156: the inner loop over `c.Problems`. -/
def fillRow (calcFn : Calc) (mp : GoMap Key (List submissionInfo)) (c : Row) : Row :=
  c.Problems.enum.foldl (fillStep calcFn mp c) c

/-- The value `getUserContests` hands to `dataResponse`, from the contests and
submissions the database returns and the problem-result calculator. -/
def getUserContests (calcFn : Calc) (contests : List db.Contest)
    (submissions : List db.Submission) : ContestsData :=
  let data := initRows contests
  let mp := indexSubmissions submissions
  { data with Contests := data.Contests.map (fillRow calcFn mp) }

/-- Modelled from the spec: `calcProblemResult` is defined outside the sources
at hand.  §4.2: the window ends at `windowStart + windowDurationSeconds`; only
accepted entries created inside the window, both ends included, are considered;
the result is the least `createdAt - windowStart` among them, and -1 when none
is considered. -/
def calcProblemResult : Calc := fun entries windowStart windowDurationSeconds =>
  let windowEnd := windowStart + windowDurationSeconds
  let considered := entries.filter (fun e =>
    e.IsAccepted && decide (windowStart ≤ e.CreateTime) && decide (e.CreateTime ≤ windowEnd))
  match considered.map (fun e => e.CreateTime - windowStart) with
  | [] => ⟨-1⟩
  | d :: ds => ⟨ds.foldl min d⟩

/-! ## Package handler: getUsers -/

/-- Go `[3]int`, the type of `user.Medals`. -/
structure Int3 where
  a0 : Int
  a1 : Int
  a2 : Int
  deriving DecidableEq, Repr

/-- The zero value of `[3]int`. -/
def Int3.zero : Int3 := ⟨0, 0, 0⟩

/-- Go `m[k]` for an index inside the array. -/
def Int3.get (m : Int3) : Fin 3 → Int
  | 0 => m.a0
  | 1 => m.a1
  | 2 => m.a2

/-- Go `m[i]++`; an index outside `0..2` panics (`none`). -/
def Int3.incr (m : Int3) (i : Int) : Option Int3 :=
  if i = 0 then some { m with a0 := m.a0 + 1 }
  else if i = 1 then some { m with a1 := m.a1 + 1 }
  else if i = 2 then some { m with a2 := m.a2 + 1 }
  else none

/-- The local type `user` of `getUsers`. -/
structure user where
  Username : String
  Nickname : String
  CfRating : Int
  Awards : List String
  Medals : Int3
  deriving DecidableEq, Repr

/-- The local type `group` of `getUsers`. -/
structure group where
  GroupId : Int
  GroupName : String
  Users : List user
  deriving DecidableEq, Repr

/-- Lines 217-222: the fresh record `&user{...}` of a member. -/
def newUser (u : db.User) : user :=
  { Username := u.Username
    Nickname := u.Nickname
    CfRating := u.CfRating
    Awards := []
    Medals := Int3.zero }

/-- Lines 211-215: the fresh record `&group{...}` of a group, no user yet. -/
def newGroup (x : db.userGroup) : group :=
  { GroupId := x.GroupId, GroupName := x.GroupName, Users := [] }

/-- Lines 216-223: `mpUser[u.Username] = &user{...}` for the users of a group. -/
def addUsers (mpUser : GoMap String user) (users : List db.User) : GoMap String user :=
  users.foldl (fun m u => mapSet m u.Username (newUser u)) mpUser

/-- Lines 211-223: the body of the first loop over `userGroup`. -/
def initStep2 (st : GoMap String user × GoMap Int group) (x : db.userGroup) :
    GoMap String user × GoMap Int group :=
  (addUsers st.1 x.Users, mapSet st.2 x.GroupId (newGroup x))

/-- Lines 207-224: the maps `mpUser` and `mpGroup` after the first loop. -/
def initMaps (userGroup : List db.userGroup) : GoMap String user × GoMap Int group :=
  userGroup.foldl initStep2 ([], [])

/-- Lines 227-229: `if x.Medal > 0 { mpUser[x.Username].Medals[x.Medal-1]++ }`.
The map holds pointers: the increment changes the record the entry points to.
A nil entry (absent username) and an index outside the array panic. -/
def medalStep (mpUser : GoMap String user) (x : db.Award) : Option (GoMap String user) :=
  if x.Medal > 0 then
    match mapGet mpUser x.Username with
    | none => none
    | some u =>
      match u.Medals.incr (x.Medal - 1) with
      | none => none
      | some ms => some (mapSet mpUser x.Username { u with Medals := ms })
  else some mpUser

/-- Lines 230-232: `if len(x.Award) > 0 { ... append(..., x.Award) }`; a nil
entry (absent username) panics. -/
def labelStep (mpUser : GoMap String user) (x : db.Award) : Option (GoMap String user) :=
  if x.Award.length > 0 then
    match mapGet mpUser x.Username with
    | none => none
    | some u => some (mapSet mpUser x.Username { u with Awards := u.Awards ++ [x.Award] })
  else some mpUser

/-- Lines 226-233: the body of the loop over `userAward`. -/
def awardStep (mpUser : GoMap String user) (x : db.Award) : Option (GoMap String user) :=
  match medalStep mpUser x with
  | none => none
  | some m1 => labelStep m1 x

/-- Line 236: `mpGroup[x.GroupId].Users = append(..., *mpUser[u.Username])`. -/
def memberStep (mpUser : GoMap String user) (gid : Int) (mpGroup : GoMap Int group)
    (u : db.User) : Option (GoMap Int group) :=
  match mapGet mpGroup gid, mapGet mpUser u.Username with
  | some g, some r => some (mapSet mpGroup gid { g with Users := g.Users ++ [r] })
  | _, _ => none

/-- Lines 235-237: the inner loop over the users of the group `x`. -/
def addMembers (mpUser : GoMap String user) (mpGroup : GoMap Int group)
    (x : db.userGroup) : Option (GoMap Int group) :=
  x.Users.foldlM (memberStep mpUser x.GroupId) mpGroup

/-- Lines 234-238: the loop that fills the user lists of the groups. -/
def fillGroups (mpUser : GoMap String user) (userGroup : List db.userGroup)
    (mpGroup : GoMap Int group) : Option (GoMap Int group) :=
  userGroup.foldlM (addMembers mpUser) mpGroup

/-- Lines 227-232 seen from the record of the awarded user: what one award does
to it when neither statement panics. -/
def applyAward (r : user) (x : db.Award) : user :=
  { r with
    Medals := if x.Medal > 0 then (r.Medals.incr (x.Medal - 1)).getD r.Medals else r.Medals
    Awards := if x.Award.length > 0 then r.Awards ++ [x.Award] else r.Awards }

/-- Line 236 seen from the record of the group: the aggregated record of the
member is appended. -/
def appendMember (mpUser : GoMap String user) (g : group) (gu : Int × db.User) : group :=
  match mapGet mpUser gu.2.Username with
  | some r => { g with Users := g.Users ++ [r] }
  | none => g

/-- The pairs (group id, member) in the order in which the loop of lines 234-238
visits them. -/
def memberPairs (userGroup : List db.userGroup) : List (Int × db.User) :=
  userGroup.flatMap (fun x => x.Users.map (fun u => (x.GroupId, u)))

/-- Lines 207-238: the aggregation, up to the map `mpGroup` the output is read
from. -/
def aggregate (userGroup : List db.userGroup) (userAward : List db.Award) :
    Option (GoMap Int group) :=
  match userAward.foldlM awardStep (initMaps userGroup).1 with
  | none => none
  | some mpUser => fillGroups mpUser userGroup (initMaps userGroup).2

/-- Lines 243-250: the two stable sorts, groups by name descending, the users of
every group by username ascending. -/
def sortData (data : List group) : List group :=
  (sort.SliceStable (fun a b => strLess b.GroupName a.GroupName) data).map
    (fun g =>
      let users := sort.SliceStable (fun a b => strLess a.Username b.Username) g.Users
      { g with Users := users })

/-- The value `getUsers` hands to `dataResponse`, from the groups
`db.GetOfficialUsers` returns, the awards `db.GetAwardsAll` returns and the order
in which `range mpGroup` visits the map (lines 240-242). -/
def getUsers (rangeOrder : List group → List group) (userGroup : List db.userGroup)
    (userAward : List db.Award) : Option (List group) :=
  match aggregate userGroup userAward with
  | none => none
  | some mpGroup => some (sortData (rangeOrder (mapValues mpGroup)))

/-- The handler `getUsers` from the rows of the database: line 209 takes
`userGroup` from `db.GetOfficialUsers` and from nowhere else.  `rangeGrp` is the
order in which `range grp` visits the map inside `db.GetOfficialUsers`,
`rangeOrder` the order in which `range mpGroup` visits the map of the handler. -/
def getUsersOfRows (rangeGrp : List db.userGroup → List db.userGroup)
    (rangeOrder : List group → List group) (groups : List db.userGroup)
    (data : List db.memberRow) (userAward : List db.Award) : Option (List group) :=
  match db.GetOfficialUsers rangeGrp groups data with
  | none => none
  | some userGroup => getUsers rangeOrder userGroup userAward

end handler

/-! ## Properties -/

/-! ### Go strings and maps -/

theorem strLess_iff (a b : String) : strLess a b = true ↔ a < b := by
  simp [strLess, String.lt_iff_toList_lt]

theorem strLess_eq_false_iff (a b : String) : strLess a b = false ↔ b ≤ a := by
  rw [← not_lt, ← strLess_iff]; simp

section GoMapLemmas

variable {κ ν : Type} [DecidableEq κ]

theorem mapGet_mapSet_self (m : GoMap κ ν) (k : κ) (v : ν) :
    mapGet (mapSet m k v) k = some v := by
  induction m with
  | nil => simp [mapSet, mapGet]
  | cons p m ih =>
    obtain ⟨k1, v1⟩ := p
    by_cases h : k1 = k
    · simp [mapSet, mapGet, h]
    · simp [mapSet, mapGet, h, ih]

theorem mapGet_mapSet_ne (m : GoMap κ ν) (k k2 : κ) (v : ν) (hne : k ≠ k2) :
    mapGet (mapSet m k v) k2 = mapGet m k2 := by
  induction m with
  | nil => simp [mapSet, mapGet, hne]
  | cons p m ih =>
    obtain ⟨k1, v1⟩ := p
    by_cases h : k1 = k
    · subst h; simp [mapSet, mapGet, hne]
    · by_cases h2 : k1 = k2
      · subst h2; simp [mapSet, mapGet, h]
      · simp [mapSet, mapGet, h, h2, ih]

theorem mapGet_mapSet (m : GoMap κ ν) (k k2 : κ) (v : ν) :
    mapGet (mapSet m k v) k2 = if k = k2 then some v else mapGet m k2 := by
  by_cases h : k = k2
  · subst h; simp [mapGet_mapSet_self]
  · simp [h, mapGet_mapSet_ne m k k2 v h]

theorem mem_mapKeys_mapSet (m : GoMap κ ν) (k k2 : κ) (v : ν) :
    k2 ∈ mapKeys (mapSet m k v) ↔ k2 = k ∨ k2 ∈ mapKeys m := by
  induction m with
  | nil => simp [mapSet, mapKeys]
  | cons p m ih =>
    obtain ⟨k1, v1⟩ := p
    by_cases h : k1 = k
    · subst h; simp [mapSet, mapKeys]
    · have ih2 : k2 ∈ List.map Prod.fst (mapSet m k v) ↔ k2 = k ∨ k2 ∈ List.map Prod.fst m := ih
      simp only [mapSet, mapKeys, h, if_false, List.map_cons, List.mem_cons, ih2]
      tauto

theorem nodup_mapKeys_mapSet (m : GoMap κ ν) (k : κ) (v : ν) (hm : (mapKeys m).Nodup) :
    (mapKeys (mapSet m k v)).Nodup := by
  induction m with
  | nil => simp [mapSet, mapKeys]
  | cons p m ih =>
    obtain ⟨k1, v1⟩ := p
    have hm2 : k1 ∉ mapKeys m ∧ (mapKeys m).Nodup := by
      simpa [mapKeys] using hm
    by_cases h : k1 = k
    · subst h; simpa [mapSet, mapKeys] using hm
    · have hk : k1 ∉ mapKeys (mapSet m k v) := by
        rw [mem_mapKeys_mapSet]; tauto
      have := ih hm2.2
      simp only [mapSet, h, if_false]
      simp only [mapKeys, List.map_cons, List.nodup_cons]
      exact ⟨hk, this⟩

theorem mapGet_eq_none_iff (m : GoMap κ ν) (k : κ) :
    mapGet m k = none ↔ k ∉ mapKeys m := by
  induction m with
  | nil => simp [mapGet, mapKeys]
  | cons p m ih =>
    obtain ⟨k1, v1⟩ := p
    have ih2 : mapGet m k = none ↔ k ∉ List.map Prod.fst m := ih
    by_cases h : k1 = k
    · simp [mapGet, mapKeys, h]
    · simp only [mapGet, mapKeys, h, if_false, List.map_cons, List.mem_cons, ih2]
      have : ¬ k = k1 := fun e => h e.symm
      tauto

theorem mapGet_isSome_iff (m : GoMap κ ν) (k : κ) :
    (∃ v, mapGet m k = some v) ↔ k ∈ mapKeys m := by
  rw [← not_iff_not, ← mapGet_eq_none_iff]
  cases mapGet m k <;> simp

theorem mem_iff_mapGet (m : GoMap κ ν) (hm : (mapKeys m).Nodup) (k : κ) (v : ν) :
    (k, v) ∈ m ↔ mapGet m k = some v := by
  induction m with
  | nil => simp [mapGet]
  | cons p m ih =>
    obtain ⟨k1, v1⟩ := p
    have hm2 : k1 ∉ mapKeys m ∧ (mapKeys m).Nodup := by
      simpa [mapKeys] using hm
    by_cases h : k1 = k
    · subst h
      have : ∀ w, (k1, w) ∉ m := fun w hw => hm2.1 (List.mem_map_of_mem Prod.fst hw)
      simp [mapGet, this]
      exact eq_comm
    · have : ¬ k = k1 := fun e => h e.symm
      simp [mapGet, h, this, ih hm2.2]

theorem mem_mapValues_iff (m : GoMap κ ν) (hm : (mapKeys m).Nodup) (v : ν) :
    v ∈ mapValues m ↔ ∃ k, mapGet m k = some v := by
  constructor
  · intro h
    obtain ⟨p, hp, rfl⟩ := List.mem_map.1 h
    exact ⟨p.1, (mem_iff_mapGet m hm p.1 p.2).1 hp⟩
  · rintro ⟨k, hk⟩
    exact List.mem_map.2 ⟨(k, v), (mem_iff_mapGet m hm k v).2 hk, rfl⟩

end GoMapLemmas

/-! ### getUserContests -/

namespace handler

/-- The projection of a submission the index stores. -/
theorem indexFold_get (subs : List db.Submission) (mp : GoMap Key (List submissionInfo))
    (key : Key) :
    (mapGet (subs.foldl indexStep mp) key).getD [] =
      (mapGet mp key).getD [] ++
        (subs.filter (fun s => decide (Key.mk s.OjId s.Pid = key))).map
          (fun s => submissionInfo.mk s.IsAccepted s.CreateTime) := by
  induction subs generalizing mp with
  | nil => simp
  | cons s subs ih =>
    rw [List.foldl_cons, ih]
    by_cases h : Key.mk s.OjId s.Pid = key
    · subst h
      simp [indexStep, mapGet_mapSet_self]
    · simp [indexStep, mapGet_mapSet_ne _ _ _ _ h, h]

theorem indexFold_nodup (subs : List db.Submission) (mp : GoMap Key (List submissionInfo))
    (hm : (mapKeys mp).Nodup) : (mapKeys (subs.foldl indexStep mp)).Nodup := by
  induction subs generalizing mp with
  | nil => simpa using hm
  | cons s subs ih =>
    rw [List.foldl_cons]
    exact ih _ (nodup_mapKeys_mapSet _ _ _ hm)

theorem indexFold_keys (subs : List db.Submission) (mp : GoMap Key (List submissionInfo))
    (key : Key) :
    key ∈ mapKeys (subs.foldl indexStep mp) ↔
      key ∈ mapKeys mp ∨ ∃ s ∈ subs, Key.mk s.OjId s.Pid = key := by
  induction subs generalizing mp with
  | nil => simp
  | cons s subs ih =>
    rw [List.foldl_cons, ih]
    simp only [indexStep, mem_mapKeys_mapSet, List.mem_cons, exists_eq_or_imp]
    constructor
    · rintro ((h | h) | h)
      · exact Or.inr (Or.inl h.symm)
      · exact Or.inl h
      · exact Or.inr (Or.inr h)
    · rintro (h | h | h)
      · exact Or.inl (Or.inr h)
      · exact Or.inl (Or.inl h.symm)
      · exact Or.inr h

theorem sum_length_mapSet_append (mp : GoMap Key (List submissionInfo)) (key : Key)
    (x : submissionInfo) :
    ((mapValues (mapSet mp key ((mapGet mp key).getD [] ++ [x]))).map List.length).sum =
      ((mapValues mp).map List.length).sum + 1 := by
  induction mp with
  | nil => simp [mapSet, mapGet, mapValues]
  | cons p mp ih =>
    obtain ⟨k1, v1⟩ := p
    by_cases h : k1 = key
    · simp [mapSet, mapGet, mapValues, h]; omega
    · have ih2 : (List.map List.length (List.map Prod.snd
          (mapSet mp key ((mapGet mp key).getD [] ++ [x])))).sum =
          (List.map List.length (List.map Prod.snd mp)).sum + 1 := ih
      simp only [mapSet, mapGet, mapValues, h, if_false, List.map_cons, List.sum_cons, ih2]
      omega

theorem indexFold_sum (subs : List db.Submission) (mp : GoMap Key (List submissionInfo)) :
    ((mapValues (subs.foldl indexStep mp)).map List.length).sum =
      ((mapValues mp).map List.length).sum + subs.length := by
  induction subs generalizing mp with
  | nil => simp
  | cons s subs ih =>
    rw [List.foldl_cons, ih]
    simp only [indexStep, sum_length_mapSet_append, List.length_cons]
    omega

/-- C8: the index built by `getUserContests` maps every key `(OjId, Pid)` to the
submissions carrying that key, projected to `(IsAccepted, CreateTime)`, in input
order (nothing dropped, duplicated or reordered); every key is stored once; the
keys stored are exactly those some submission carries; the lengths of the stored
sequences sum to the number of submissions; a key carried by no submission reads
as the empty sequence. -/
theorem indexSubmissions_spec (submissions : List db.Submission) :
    (∀ key : Key,
      (mapGet (indexSubmissions submissions) key).getD [] =
        (submissions.filter (fun s => decide (Key.mk s.OjId s.Pid = key))).map
          (fun s => submissionInfo.mk s.IsAccepted s.CreateTime)) ∧
    (mapKeys (indexSubmissions submissions)).Nodup ∧
    (∀ key : Key, key ∈ mapKeys (indexSubmissions submissions) ↔
      ∃ s ∈ submissions, Key.mk s.OjId s.Pid = key) ∧
    ((mapValues (indexSubmissions submissions)).map List.length).sum = submissions.length ∧
    (∀ key : Key, (∀ s ∈ submissions, Key.mk s.OjId s.Pid ≠ key) →
      (mapGet (indexSubmissions submissions) key).getD [] = []) := by
  have hget := fun key => indexFold_get submissions [] key
  refine ⟨?_, ?_, ?_, ?_, ?_⟩
  · intro key
    simpa [indexSubmissions, mapGet] using hget key
  · exact indexFold_nodup submissions [] (by simp [mapKeys])
  · intro key
    simpa [indexSubmissions, mapKeys] using indexFold_keys submissions [] key
  · simpa [indexSubmissions, mapValues] using indexFold_sum submissions []
  · intro key hkey
    have h := hget key
    simp only [indexSubmissions]
    rw [h]
    have : submissions.filter (fun s => decide (Key.mk s.OjId s.Pid = key)) = [] := by
      rw [List.filter_eq_nil_iff]
      intro s hs
      simpa using hkey s hs
    simp [this, mapGet]

end handler

namespace handler

theorem take_succ_set {α : Type} (l : List α) (n : Nat) (v : α) (h : n < l.length) :
    (l.set n v).take (n + 1) = l.take n ++ [v] := by
  induction l generalizing n with
  | nil => simp at h
  | cons a l ih =>
    cases n with
    | zero => simp
    | succ n =>
      have h2 : n < l.length := by simpa using h
      simp [ih n h2]

theorem getD_set_self {α : Type} (l : List α) (n : Nat) (v d : α) (h : n < l.length) :
    (l.set n v).getD n d = v := by
  induction l generalizing n with
  | nil => simp at h
  | cons a l ih =>
    cases n with
    | zero => simp
    | succ n =>
      have h2 : n < l.length := by simpa using h
      simpa using ih n h2

theorem fillStep_spec (calcFn : Calc) (mp : GoMap Key (List submissionInfo)) (c r : Row)
    (n : Nat) (p : db.Problem) (h : n < r.ProblemResults.length) :
    (fillStep calcFn mp c r (n, p)).ProblemResults =
        r.ProblemResults.set n (resultOf calcFn mp c p) ∧
    (fillStep calcFn mp c r (n, p)).Solved =
        r.Solved + (if (resultOf calcFn mp c p).AcceptedTime ≠ -1 then 1 else 0) ∧
    (fillStep calcFn mp c r (n, p)).Problems = r.Problems := by
  unfold fillStep
  simp only [getD_set_self _ _ _ _ h]
  split <;> simp

theorem fillFold_spec (calcFn : Calc) (mp : GoMap Key (List submissionInfo)) (c : Row)
    (ps : List db.Problem) (n : Nat) (r : Row)
    (h : r.ProblemResults.length = n + ps.length) :
    ((ps.enumFrom n).foldl (fillStep calcFn mp c) r).ProblemResults =
        r.ProblemResults.take n ++ ps.map (resultOf calcFn mp c) ∧
    ((ps.enumFrom n).foldl (fillStep calcFn mp c) r).Solved =
        r.Solved + (((ps.map (resultOf calcFn mp c)).filter
          (fun x => decide (x.AcceptedTime ≠ -1))).length : Int) ∧
    ((ps.enumFrom n).foldl (fillStep calcFn mp c) r).Problems = r.Problems := by
  induction ps generalizing n r with
  | nil =>
    have : r.ProblemResults.take n = r.ProblemResults := by
      apply List.take_of_length_le; simp at h; omega
    simp [this]
  | cons p ps ih =>
    have hn : n < r.ProblemResults.length := by simp at h; omega
    obtain ⟨h1, h2, h3⟩ := fillStep_spec calcFn mp c r n p hn
    have hlen : (fillStep calcFn mp c r (n, p)).ProblemResults.length = (n + 1) + ps.length := by
      rw [h1]; simp at h ⊢; omega
    obtain ⟨i1, i2, i3⟩ := ih (n + 1) _ hlen
    simp only [List.enumFrom_cons, List.foldl_cons]
    refine ⟨?_, ?_, ?_⟩
    · rw [i1, h1, take_succ_set _ _ _ hn]; simp
    · rw [i2, h2]
      by_cases hv : (resultOf calcFn mp c p).AcceptedTime = -1
      · simp [hv]
      · simp [hv, List.filter_cons]; omega
    · rw [i3, h3]

theorem fillRow_spec (calcFn : Calc) (mp : GoMap Key (List submissionInfo)) (c : Row)
    (h : c.ProblemResults.length = c.Problems.length) :
    (fillRow calcFn mp c).ProblemResults = c.Problems.map (resultOf calcFn mp c) ∧
    (fillRow calcFn mp c).Solved =
        c.Solved + (((c.Problems.map (resultOf calcFn mp c)).filter
          (fun x => decide (x.AcceptedTime ≠ -1))).length : Int) ∧
    (fillRow calcFn mp c).Problems = c.Problems := by
  have := fillFold_spec calcFn mp c c.Problems 0 c (by simpa using h)
  simpa [fillRow, List.enum] using this

theorem initFold_contests (contests : List db.Contest) (d : ContestsData) :
    (contests.foldl initStep d).Contests = d.Contests ++ contests.map newRow := by
  induction contests generalizing d with
  | nil => simp
  | cons c cs ih => rw [List.foldl_cons, ih]; simp [initStep]

theorem initFold_max (contests : List db.Contest) (d : ContestsData) :
    (∀ c ∈ contests, (c.Problems.length : Int) ≤ (contests.foldl initStep d).MaxProblems) ∧
    d.MaxProblems ≤ (contests.foldl initStep d).MaxProblems ∧
    ((contests.foldl initStep d).MaxProblems = d.MaxProblems ∨
      ∃ c ∈ contests, (contests.foldl initStep d).MaxProblems = (c.Problems.length : Int)) := by
  induction contests generalizing d with
  | nil => simp
  | cons c cs ih =>
    obtain ⟨i1, i2, i3⟩ := ih (initStep d c)
    have hmax : (initStep d c).MaxProblems = utils.Max d.MaxProblems (c.Problems.length : Int) := rfl
    have hge1 : d.MaxProblems ≤ (initStep d c).MaxProblems := by
      rw [hmax]; unfold utils.Max; split <;> omega
    have hge2 : (c.Problems.length : Int) ≤ (initStep d c).MaxProblems := by
      rw [hmax]; unfold utils.Max; split <;> omega
    have hcase : (initStep d c).MaxProblems = d.MaxProblems ∨
        (initStep d c).MaxProblems = (c.Problems.length : Int) := by
      rw [hmax]; unfold utils.Max; split <;> simp
    rw [List.foldl_cons]
    refine ⟨?_, le_trans hge1 i2, ?_⟩
    · intro x hx
      rcases List.mem_cons.1 hx with rfl | hx
      · exact le_trans hge2 i2
      · exact i1 x hx
    · rcases i3 with h | ⟨x, hx, h⟩
      · rcases hcase with h2 | h2
        · exact Or.inl (h.trans h2)
        · exact Or.inr ⟨c, List.mem_cons_self _ _, h.trans h2⟩
      · exact Or.inr ⟨x, List.mem_cons_of_mem _ hx, h⟩

/-- C1: in every row `getUserContests` builds, whatever the calculator, the
contests and the submissions, `ProblemResults` is parallel to `Problems` and
`Solved` is the number of positions of `ProblemResults` whose `AcceptedTime`
is not -1. -/
theorem getUserContests_solved (calcFn : Calc) (contests : List db.Contest)
    (submissions : List db.Submission) :
    ∀ row ∈ (getUserContests calcFn contests submissions).Contests,
      row.ProblemResults.length = row.Problems.length ∧
      row.Solved =
        ((row.ProblemResults.filter (fun x => decide (x.AcceptedTime ≠ -1))).length : Int) := by
  intro row hrow
  simp only [getUserContests, initRows, initFold_contests, List.nil_append, List.map_map,
    List.mem_map, Function.comp] at hrow
  obtain ⟨c, _, rfl⟩ := hrow
  obtain ⟨h1, h2, h3⟩ := fillRow_spec calcFn (indexSubmissions submissions) (newRow c)
    (by simp [newRow])
  rw [h1, h2, h3]
  simp [newRow]

/-- C3: `MaxProblems` bounds the problem count of every input contest and is
attained: it is 0 for the empty contest sequence and otherwise the problem
count of some input contest, that is, the maximum of `len(contest.Problems)`. -/
theorem getUserContests_maxProblems (calcFn : Calc) (contests : List db.Contest)
    (submissions : List db.Submission) :
    (∀ c ∈ contests,
      (c.Problems.length : Int) ≤ (getUserContests calcFn contests submissions).MaxProblems) ∧
    ((contests = [] ∧ (getUserContests calcFn contests submissions).MaxProblems = 0) ∨
      (∃ c ∈ contests,
        (getUserContests calcFn contests submissions).MaxProblems = (c.Problems.length : Int))) := by
  obtain ⟨i1, _, i3⟩ := initFold_max contests { MaxProblems := 0, Contests := [] }
  have hM : (getUserContests calcFn contests submissions).MaxProblems =
      (contests.foldl initStep { MaxProblems := 0, Contests := [] }).MaxProblems := rfl
  rw [hM]
  refine ⟨i1, ?_⟩
  rcases i3 with h | h
  · cases contests with
    | nil => exact Or.inl ⟨rfl, h⟩
    | cons c cs =>
      right
      -- the maximum is 0 and every count is at most 0: the head attains it
      have hc := i1 c (List.mem_cons_self _ _)
      rw [h] at hc
      have : (c.Problems.length : Int) = 0 := by
        have : (0 : Int) ≤ (c.Problems.length : Int) := Int.natCast_nonneg _
        exact le_antisymm hc this
      exact ⟨c, List.mem_cons_self _ _, by rw [h, this]⟩
  · exact Or.inr h

end handler

namespace handler

theorem foldl_min_le (ds : List Int) (d : Int) :
    ds.foldl min d ≤ d ∧ (∀ x ∈ ds, ds.foldl min d ≤ x) ∧
      (ds.foldl min d = d ∨ ds.foldl min d ∈ ds) := by
  induction ds generalizing d with
  | nil => simp
  | cons a ds ih =>
    obtain ⟨h1, h2, h3⟩ := ih (min d a)
    simp only [List.foldl_cons, List.mem_cons]
    refine ⟨le_trans h1 (min_le_left _ _), ?_, ?_⟩
    · intro x hx
      rcases hx with rfl | hx
      · exact le_trans h1 (min_le_right _ _)
      · exact h2 x hx
    · rcases h3 with h | h
      · rcases min_choice d a with hm | hm
        · left; rw [h, hm]
        · right; left; rw [h, hm]
      · right; right; exact h

/-- C2: `calcProblemResult` returns -1 when no entry is accepted inside the
window `windowStart <= createdAt <= windowStart + windowDurationSeconds` (in
particular for the empty sequence and when the only accepted entries lie outside
the window); when some entry qualifies, the result is `createdAt - windowStart`
of a qualifying entry and is at most that difference for every qualifying entry,
that is, the minimum; it is then never negative. -/
theorem calcProblemResult_spec (entries : List submissionInfo) (windowStart : Int)
    (windowDurationSeconds : Int) :
    ((∀ e ∈ entries, ¬ (e.IsAccepted = true ∧ windowStart ≤ e.CreateTime ∧
          e.CreateTime ≤ windowStart + windowDurationSeconds)) →
      (calcProblemResult entries windowStart windowDurationSeconds).AcceptedTime = -1) ∧
    ((∃ e ∈ entries, e.IsAccepted = true ∧ windowStart ≤ e.CreateTime ∧
          e.CreateTime ≤ windowStart + windowDurationSeconds) →
      (∃ e ∈ entries, (e.IsAccepted = true ∧ windowStart ≤ e.CreateTime ∧
          e.CreateTime ≤ windowStart + windowDurationSeconds) ∧
        (calcProblemResult entries windowStart windowDurationSeconds).AcceptedTime =
          e.CreateTime - windowStart) ∧
      (∀ e ∈ entries, (e.IsAccepted = true ∧ windowStart ≤ e.CreateTime ∧
          e.CreateTime ≤ windowStart + windowDurationSeconds) →
        (calcProblemResult entries windowStart windowDurationSeconds).AcceptedTime ≤
          e.CreateTime - windowStart) ∧
      0 ≤ (calcProblemResult entries windowStart windowDurationSeconds).AcceptedTime) := by
  have hmem : ∀ e, e ∈ entries.filter (fun e => e.IsAccepted &&
      decide (windowStart ≤ e.CreateTime) &&
      decide (e.CreateTime ≤ windowStart + windowDurationSeconds)) ↔
      e ∈ entries ∧ (e.IsAccepted = true ∧ windowStart ≤ e.CreateTime ∧
          e.CreateTime ≤ windowStart + windowDurationSeconds) := by
    intro e
    simp [List.mem_filter, and_assoc]
  constructor
  · intro hnone
    have : entries.filter (fun e => e.IsAccepted &&
      decide (windowStart ≤ e.CreateTime) &&
      decide (e.CreateTime ≤ windowStart + windowDurationSeconds)) = [] := by
      apply List.eq_nil_iff_forall_not_mem.2
      intro e he
      exact hnone e ((hmem e).1 he).1 ((hmem e).1 he).2
    simp [calcProblemResult, this]
  · rintro ⟨e0, he0, hq0⟩
    have he0f := (hmem e0).2 ⟨he0, hq0⟩
    unfold calcProblemResult
    simp only
    generalize hc : entries.filter (fun e => e.IsAccepted &&
      decide (windowStart ≤ e.CreateTime) &&
      decide (e.CreateTime ≤ windowStart + windowDurationSeconds)) = considered at he0f hmem
    cases considered with
    | nil => simp at he0f
    | cons c cs =>
      simp only [List.map_cons]
      obtain ⟨h1, h2, h3⟩ := foldl_min_le (cs.map (fun e => e.CreateTime - windowStart))
        (c.CreateTime - windowStart)
      have hattain : ∃ e ∈ c :: cs,
          List.foldl min (c.CreateTime - windowStart)
            (cs.map (fun e => e.CreateTime - windowStart)) = e.CreateTime - windowStart := by
        rcases h3 with h | h
        · exact ⟨c, List.mem_cons_self _ _, h⟩
        · obtain ⟨e, he, hee⟩ := List.mem_map.1 h
          exact ⟨e, List.mem_cons_of_mem _ he, hee.symm⟩
      have hlow : ∀ e ∈ c :: cs,
          List.foldl min (c.CreateTime - windowStart)
            (cs.map (fun e => e.CreateTime - windowStart)) ≤ e.CreateTime - windowStart := by
        intro e he
        rcases List.mem_cons.1 he with rfl | he
        · exact h1
        · exact h2 _ (List.mem_map.2 ⟨e, he, rfl⟩)
      obtain ⟨e, he, hee⟩ := hattain
      have heq := (hmem e).1 he
      refine ⟨⟨e, heq.1, heq.2, hee⟩, ?_, ?_⟩
      · intro e2 he2 hq2
        exact hlow e2 ((hmem e2).2 ⟨he2, hq2⟩)
      · rw [hee]; omega

/-- The rows of `getUserContests` hold, at every position, the result of the
calculator on the submissions carrying the key of the problem at that position
(in input order), for the start and duration of the contest. -/
theorem getUserContests_results (calcFn : Calc) (contests : List db.Contest)
    (submissions : List db.Submission) :
    (getUserContests calcFn contests submissions).Contests.map (fun r => r.ProblemResults) =
      contests.map (fun c => c.Problems.map (fun p => calcFn
        ((submissions.filter (fun s => decide (Key.mk s.OjId s.Pid = ⟨p.OjId, p.Pid⟩))).map
          (fun s => submissionInfo.mk s.IsAccepted s.CreateTime)) c.StartTime c.Duration)) := by
  simp only [getUserContests, initRows, initFold_contests, List.nil_append, List.map_map]
  apply List.map_congr_left
  intro c _
  obtain ⟨h1, _, _⟩ := fillRow_spec calcFn (indexSubmissions submissions) (newRow c)
    (by simp [newRow])
  have hres : ∀ p, resultOf calcFn (indexSubmissions submissions) (newRow c) p =
      calcFn ((submissions.filter (fun s => decide (Key.mk s.OjId s.Pid = ⟨p.OjId, p.Pid⟩))).map
        (fun s => submissionInfo.mk s.IsAccepted s.CreateTime)) c.StartTime c.Duration := by
    intro p
    have := indexFold_get submissions [] ⟨p.OjId, p.Pid⟩
    simp only [mapGet, Option.getD_none, List.nil_append] at this
    simp only [resultOf, indexSubmissions, this]
    rfl
  simp only [Function.comp, h1]
  exact List.map_congr_left (fun p _ => hres p)

end handler

namespace handler

/-- C1 at the example of the specification: a contest of three problems of which
only the second is solved, 55 seconds after the start, has `Solved = 1` and the
results -1, 55, -1. -/
theorem getUserContests_solved_witness :
    (⟨1, "c", 0, 3600, 1, [⟨1, "a"⟩, ⟨1, "b"⟩, ⟨2, "a"⟩], [⟨-1⟩, ⟨55⟩, ⟨-1⟩]⟩ : Row) ∈
      (getUserContests calcProblemResult [⟨1, "c", 0, 3600, [⟨1, "a"⟩, ⟨1, "b"⟩, ⟨2, "a"⟩]⟩]
        [⟨"u", 1, "b", false, 5⟩, ⟨"u", 1, "b", true, 55⟩, ⟨"u", 2, "a", true, 5000⟩]).Contests ∧
    ((⟨1, "c", 0, 3600, 1, [⟨1, "a"⟩, ⟨1, "b"⟩, ⟨2, "a"⟩], [⟨-1⟩, ⟨55⟩, ⟨-1⟩]⟩ : Row).ProblemResults.length =
        (⟨1, "c", 0, 3600, 1, [⟨1, "a"⟩, ⟨1, "b"⟩, ⟨2, "a"⟩], [⟨-1⟩, ⟨55⟩, ⟨-1⟩]⟩ : Row).Problems.length ∧
      (⟨1, "c", 0, 3600, 1, [⟨1, "a"⟩, ⟨1, "b"⟩, ⟨2, "a"⟩], [⟨-1⟩, ⟨55⟩, ⟨-1⟩]⟩ : Row).Solved =
        (((⟨1, "c", 0, 3600, 1, [⟨1, "a"⟩, ⟨1, "b"⟩, ⟨2, "a"⟩], [⟨-1⟩, ⟨55⟩, ⟨-1⟩]⟩ : Row).ProblemResults.filter
          (fun x => decide (x.AcceptedTime ≠ -1))).length : Int)) :=
  ⟨by decide,
    getUserContests_solved calcProblemResult
      [⟨1, "c", 0, 3600, [⟨1, "a"⟩, ⟨1, "b"⟩, ⟨2, "a"⟩]⟩]
      [⟨"u", 1, "b", false, 5⟩, ⟨"u", 1, "b", true, 55⟩, ⟨"u", 2, "a", true, 5000⟩]
      ⟨1, "c", 0, 3600, 1, [⟨1, "a"⟩, ⟨1, "b"⟩, ⟨2, "a"⟩], [⟨-1⟩, ⟨55⟩, ⟨-1⟩]⟩ (by decide)⟩

end handler

/-! ### Keyed updates -/

theorem strLength_pos_iff (s : String) : s.length > 0 ↔ s ≠ "" := by
  obtain ⟨l⟩ := s
  cases l with
  | nil => simp [String.length]
  | cons a l =>
    simp only [String.length, List.length_cons, gt_iff_lt, Nat.zero_lt_succ, ne_eq, true_iff]
    intro h
    have := congrArg String.data h
    simp at this

section GoMapUpdates

variable {κ ν β : Type} [DecidableEq κ]

theorem mapKeys_mapSet_of_mem (m : GoMap κ ν) (k : κ) (v : ν) (h : k ∈ mapKeys m) :
    mapKeys (mapSet m k v) = mapKeys m := by
  induction m with
  | nil => simp [mapKeys] at h
  | cons p m ih =>
    obtain ⟨k1, v1⟩ := p
    by_cases hk : k1 = k
    · subst hk; simp [mapSet, mapKeys]
    · have hmem : k ∈ mapKeys m := by
        have : k = k1 ∨ k ∈ mapKeys m := by simpa [mapKeys] using h
        rcases this with e | e
        · exact absurd e.symm hk
        · exact e
      have := ih hmem
      simp only [mapKeys] at this
      simp [mapSet, mapKeys, hk, this]

theorem mapSet_mapSet (m : GoMap κ ν) (k : κ) (v w : ν) :
    mapSet (mapSet m k v) k w = mapSet m k w := by
  induction m with
  | nil => simp [mapSet]
  | cons p m ih =>
    obtain ⟨k1, v1⟩ := p
    by_cases hk : k1 = k
    · simp [mapSet, hk]
    · simp [mapSet, hk, ih]

theorem mapSet_eq_self (m : GoMap κ ν) (k : κ) (v : ν) (h : mapGet m k = some v) :
    mapSet m k v = m := by
  induction m with
  | nil => simp [mapGet] at h
  | cons p m ih =>
    obtain ⟨k1, v1⟩ := p
    by_cases hk : k1 = k
    · subst hk
      have : v1 = v := by simpa [mapGet] using h
      simp [mapSet, this]
    · have h2 : mapGet m k = some v := by simpa [mapGet, hk] using h
      simp [mapSet, hk, ih h2]

theorem mem_mapKeys_of_mapGet (m : GoMap κ ν) (k : κ) (v : ν) (h : mapGet m k = some v) :
    k ∈ mapKeys m :=
  (mapGet_isSome_iff m k).1 ⟨v, h⟩

/-- A loop whose every step rewrites the entry of the key of its element, all
keys being present: the loop does not fail, keeps the keys, and leaves at every
key the value folded over the elements of that key, in order. -/
theorem foldlM_update (step : GoMap κ ν → β → Option (GoMap κ ν)) (key : β → κ)
    (upd : ν → β → ν) (xs : List β)
    (hstep : ∀ m x v, x ∈ xs → mapGet m (key x) = some v →
      step m x = some (mapSet m (key x) (upd v x)))
    (m : GoMap κ ν) (hk : ∀ x ∈ xs, key x ∈ mapKeys m) :
    ∃ m2, xs.foldlM step m = some m2 ∧ mapKeys m2 = mapKeys m ∧
      ∀ k v, mapGet m k = some v →
        mapGet m2 k = some ((xs.filter (fun x => decide (key x = k))).foldl upd v) := by
  induction xs generalizing m with
  | nil => exact ⟨m, rfl, rfl, fun k v h => by simpa using h⟩
  | cons x xs ih =>
    obtain ⟨v0, hv0⟩ := (mapGet_isSome_iff m (key x)).2 (hk x (List.mem_cons_self _ _))
    have hs := hstep m x v0 (List.mem_cons_self _ _) hv0
    have hkeys : mapKeys (mapSet m (key x) (upd v0 x)) = mapKeys m :=
      mapKeys_mapSet_of_mem m _ _ (hk x (List.mem_cons_self _ _))
    obtain ⟨m2, h1, h2, h3⟩ := ih
      (fun m y v hy => hstep m y v (List.mem_cons_of_mem _ hy))
      (mapSet m (key x) (upd v0 x))
      (fun y hy => by rw [hkeys]; exact hk y (List.mem_cons_of_mem _ hy))
    refine ⟨m2, ?_, h2.trans hkeys, ?_⟩
    · rw [List.foldlM_cons, hs]; exact h1
    · intro k v hv
      by_cases hkx : key x = k
      · subst hkx
        have hvv : v = v0 := by rw [hv0] at hv; exact (Option.some.inj hv).symm
        subst hvv
        rw [h3 (key x) (upd v x) (mapGet_mapSet_self _ _ _)]
        simp [List.filter_cons]
      · rw [h3 k v (by rw [mapGet_mapSet_ne _ _ _ _ hkx]; exact hv)]
        simp [List.filter_cons, hkx]

end GoMapUpdates

/-- A loop whose steps, when they succeed, rewrite an entry that is present
keeps the keys of the map. -/
theorem foldlM_keys {κ ν β : Type} (step : GoMap κ ν → β → Option (GoMap κ ν))
    (hstep : ∀ m x m1, step m x = some m1 → mapKeys m1 = mapKeys m)
    (xs : List β) (m m2 : GoMap κ ν) (h : xs.foldlM step m = some m2) :
    mapKeys m2 = mapKeys m := by
  induction xs generalizing m with
  | nil =>
    have : m = m2 := by simpa using h
    rw [this]
  | cons x xs ih =>
    rw [List.foldlM_cons] at h
    cases hs : step m x with
    | none => rw [hs] at h; simp at h
    | some m1 =>
      rw [hs] at h
      exact (ih m1 h).trans (hstep m x m1 hs)


/-! ### getUsers: the aggregation -/

namespace handler

theorem Int3.incr_spec (m : Int3) (i : Int) (h0 : 0 ≤ i) (h2 : i ≤ 2) :
    ∃ ms, m.incr i = some ms ∧
      ∀ k : Fin 3, ms.get k = m.get k + (if i = (k.val : Int) then 1 else 0) := by
  have hi : i = 0 ∨ i = 1 ∨ i = 2 := by omega
  rcases hi with rfl | rfl | rfl
  · refine ⟨_, rfl, ?_⟩
    intro k; fin_cases k <;> simp [Int3.get]
  · refine ⟨_, rfl, ?_⟩
    intro k; fin_cases k <;> simp [Int3.get]
  · refine ⟨_, rfl, ?_⟩
    intro k; fin_cases k <;> simp [Int3.get]

theorem awardStep_update (m : GoMap String user) (x : db.Award) (r : user)
    (hr : mapGet m x.Username = some r) (h3 : x.Medal ≤ 3) :
    awardStep m x = some (mapSet m x.Username (applyAward r x)) := by
  unfold awardStep medalStep labelStep applyAward
  by_cases hm : x.Medal > 0
  · obtain ⟨ms, hms, _⟩ := Int3.incr_spec r.Medals (x.Medal - 1) (by omega) (by omega)
    by_cases hl : x.Award.length > 0
    · simp [hm, hl, hr, hms, mapGet_mapSet_self, mapSet_mapSet]
    · simp [hm, hl, hr, hms]
  · by_cases hl : x.Award.length > 0
    · simp [hm, hl, hr]
    · simp only [hm, hl, if_false]
      have : ({ r with Medals := r.Medals, Awards := r.Awards } : user) = r := rfl
      rw [mapSet_eq_self m x.Username r hr]

theorem awardStep_keys (m : GoMap String user) (x : db.Award) (m1 : GoMap String user)
    (h : awardStep m x = some m1) : mapKeys m1 = mapKeys m := by
  cases hr : mapGet m x.Username with
  | none =>
    unfold awardStep medalStep labelStep at h
    by_cases hm : x.Medal > 0
    · simp [hm, hr] at h
    · by_cases hl : x.Award.length > 0
      · simp [hm, hl, hr] at h
      · simp [hm, hl] at h
        rw [h]
  | some r =>
    have hk := mem_mapKeys_of_mapGet m _ _ hr
    unfold awardStep medalStep labelStep at h
    by_cases hm : x.Medal > 0
    · simp only [hm, if_true, hr] at h
      cases hi : r.Medals.incr (x.Medal - 1) with
      | none => simp [hi] at h
      | some ms =>
        simp only [hi] at h
        by_cases hl : x.Award.length > 0
        · simp only [hl, if_true, mapGet_mapSet_self, Option.some.injEq] at h
          rw [← h, mapSet_mapSet]
          exact mapKeys_mapSet_of_mem _ _ _ hk
        · simp only [hl, if_false, Option.some.injEq] at h
          rw [← h]
          exact mapKeys_mapSet_of_mem _ _ _ hk
    · by_cases hl : x.Award.length > 0
      · simp only [hm, hl, if_true, if_false, hr, Option.some.injEq] at h
        rw [← h]
        exact mapKeys_mapSet_of_mem _ _ _ hk
      · simp [hm, hl] at h
        rw [h]

theorem awardStep_none (m : GoMap String user) (x : db.Award)
    (hk : x.Username ∉ mapKeys m) (hx : x.Medal > 0 ∨ x.Award.length > 0) :
    awardStep m x = none := by
  have hr : mapGet m x.Username = none := (mapGet_eq_none_iff m _).2 hk
  unfold awardStep medalStep labelStep
  by_cases hm : x.Medal > 0
  · simp [hm, hr]
  · have hl : x.Award.length > 0 := by tauto
    simp [hm, hl, hr]

/-- An award that changes something and names a user absent from the map makes
the loop over the awards panic, wherever it stands in the sequence. -/
theorem awards_foldlM_none (userAward : List db.Award) (m : GoMap String user)
    (h : ∃ x ∈ userAward, x.Username ∉ mapKeys m ∧ (x.Medal > 0 ∨ x.Award.length > 0)) :
    userAward.foldlM awardStep m = none := by
  induction userAward generalizing m with
  | nil => simp at h
  | cons a as ih =>
    rw [List.foldlM_cons]
    cases hs : awardStep m a with
    | none => rfl
    | some m1 =>
      have hkeys := awardStep_keys m a m1 hs
      obtain ⟨x, hx, hxk, hxe⟩ := h
      rcases List.mem_cons.1 hx with rfl | hx
      · rw [awardStep_none m x hxk hxe] at hs; simp at hs
      · exact ih m1 ⟨x, hx, by rw [hkeys]; exact hxk, hxe⟩

theorem applyAward_foldl (xs : List db.Award) (r : user) (h3 : ∀ x ∈ xs, x.Medal ≤ 3) :
    (xs.foldl applyAward r).Username = r.Username ∧
    (∀ k : Fin 3, (xs.foldl applyAward r).Medals.get k =
      r.Medals.get k +
        ((xs.filter (fun x => decide (x.Medal = (k.val : Int) + 1))).length : Int)) ∧
    (xs.foldl applyAward r).Awards =
      r.Awards ++ (xs.filter (fun x => decide (x.Award ≠ ""))).map (fun x => x.Award) := by
  induction xs generalizing r with
  | nil => simp
  | cons x xs ih =>
    obtain ⟨i1, i2, i3⟩ := ih (applyAward r x) (fun y hy => h3 y (List.mem_cons_of_mem _ hy))
    have hx3 := h3 x (List.mem_cons_self _ _)
    rw [List.foldl_cons]
    refine ⟨i1, ?_, ?_⟩
    · intro k
      rw [i2 k]
      by_cases hm : x.Medal > 0
      · obtain ⟨ms, hms, hget⟩ := Int3.incr_spec r.Medals (x.Medal - 1) (by omega) (by omega)
        have : (applyAward r x).Medals = ms := by simp [applyAward, hm, hms]
        rw [this, hget k]
        by_cases hk : x.Medal = (k.val : Int) + 1
        · have : x.Medal - 1 = (k.val : Int) := by omega
          simp [List.filter_cons, hk, this]; omega
        · have : ¬ x.Medal - 1 = (k.val : Int) := by omega
          simp [List.filter_cons, hk, this]
      · have : (applyAward r x).Medals = r.Medals := by simp [applyAward, hm]
        rw [this]
        have hk : ¬ x.Medal = (k.val : Int) + 1 := by omega
        simp [List.filter_cons, hk]
    · rw [i3]
      by_cases hl : x.Award.length > 0
      · have hne := (strLength_pos_iff x.Award).1 hl
        simp [applyAward, hl, List.filter_cons, hne]
      · have hne : x.Award = "" := by
          by_contra hc
          exact hl ((strLength_pos_iff x.Award).2 hc)
        simp [applyAward, hne, List.filter_cons]

theorem addUsers_keys (us : List db.User) (m : GoMap String user) (name : String) :
    name ∈ mapKeys (addUsers m us) ↔ name ∈ mapKeys m ∨ ∃ u ∈ us, u.Username = name := by
  induction us generalizing m with
  | nil => simp [addUsers]
  | cons u us ih =>
    have := ih (mapSet m u.Username (newUser u))
    simp only [addUsers, List.foldl_cons] at this ⊢
    rw [this, mem_mapKeys_mapSet]
    simp only [List.mem_cons, exists_eq_or_imp]
    constructor
    · rintro ((h | h) | h)
      · exact Or.inr (Or.inl h.symm)
      · exact Or.inl h
      · exact Or.inr (Or.inr h)
    · rintro (h | h | h)
      · exact Or.inl (Or.inr h)
      · exact Or.inl (Or.inl h.symm)
      · exact Or.inr h

theorem addUsers_fresh (us : List db.User) (m : GoMap String user)
    (hm : ∀ name r, mapGet m name = some r →
      r.Username = name ∧ r.Awards = [] ∧ r.Medals = Int3.zero) :
    ∀ name r, mapGet (addUsers m us) name = some r →
      r.Username = name ∧ r.Awards = [] ∧ r.Medals = Int3.zero := by
  induction us generalizing m with
  | nil => simpa [addUsers] using hm
  | cons u us ih =>
    have := ih (mapSet m u.Username (newUser u)) (by
      intro name r hr
      rw [mapGet_mapSet] at hr
      by_cases hn : u.Username = name
      · simp only [hn, if_true, Option.some.injEq] at hr
        subst hr
        exact ⟨hn, rfl, rfl⟩
      · simp only [hn, if_false] at hr
        exact hm name r hr)
    simpa [addUsers] using this

theorem initFold_fst (ug : List db.userGroup) (st : GoMap String user × GoMap Int group) :
    (ug.foldl initStep2 st).1 = addUsers st.1 (ug.flatMap (fun x => x.Users)) := by
  induction ug generalizing st with
  | nil => simp [addUsers]
  | cons x xs ih =>
    rw [List.foldl_cons, ih]
    simp [initStep2, addUsers, List.foldl_append]

theorem initFold_snd (ug : List db.userGroup) (st : GoMap String user × GoMap Int group) :
    (ug.foldl initStep2 st).2 =
      ug.foldl (fun m x => mapSet m x.GroupId (newGroup x)) st.2 := by
  induction ug generalizing st with
  | nil => simp
  | cons x xs ih =>
    rw [List.foldl_cons, ih]
    simp [initStep2]

theorem initMaps_user_keys (ug : List db.userGroup) (name : String) :
    name ∈ mapKeys (initMaps ug).1 ↔ ∃ x ∈ ug, ∃ u ∈ x.Users, u.Username = name := by
  rw [initMaps, initFold_fst, addUsers_keys]
  simp only [mapKeys, List.map_nil, List.not_mem_nil, false_or, List.mem_flatMap]
  constructor
  · rintro ⟨u, ⟨x, hx, hu⟩, hn⟩
    exact ⟨x, hx, u, hu, hn⟩
  · rintro ⟨x, hx, u, hu, hn⟩
    exact ⟨u, ⟨x, hx, hu⟩, hn⟩

theorem initMaps_user_fresh (ug : List db.userGroup) (name : String) (r : user)
    (h : mapGet (initMaps ug).1 name = some r) :
    r.Username = name ∧ r.Awards = [] ∧ r.Medals = Int3.zero := by
  rw [initMaps, initFold_fst] at h
  exact addUsers_fresh _ [] (by intro n r hr; simp [mapGet] at hr) name r h

theorem groupFold_spec (ug : List db.userGroup) (m : GoMap Int group)
    (hnd : (mapKeys m).Nodup)
    (hm : ∀ id g, mapGet m id = some g → g.GroupId = id ∧ g.Users = []) :
    (mapKeys (ug.foldl (fun m x => mapSet m x.GroupId (newGroup x)) m)).Nodup ∧
    (∀ id, id ∈ mapKeys (ug.foldl (fun m x => mapSet m x.GroupId (newGroup x)) m) ↔
      id ∈ mapKeys m ∨ ∃ x ∈ ug, x.GroupId = id) ∧
    (∀ id g, mapGet (ug.foldl (fun m x => mapSet m x.GroupId (newGroup x)) m) id = some g →
      g.GroupId = id ∧ g.Users = [] ∧
        (mapGet m id = some g ∨ ∃ x ∈ ug, x.GroupId = id ∧ x.GroupName = g.GroupName)) := by
  induction ug generalizing m with
  | nil =>
    refine ⟨by simpa using hnd, by simp, ?_⟩
    intro id g hg
    exact ⟨(hm id g hg).1, (hm id g hg).2, Or.inl hg⟩
  | cons x xs ih =>
    have hm1 : ∀ id g, mapGet (mapSet m x.GroupId (newGroup x)) id = some g →
        g.GroupId = id ∧ g.Users = [] := by
      intro id g hg
      rw [mapGet_mapSet] at hg
      by_cases hn : x.GroupId = id
      · simp only [hn, if_true, Option.some.injEq] at hg
        subst hg
        exact ⟨hn, rfl⟩
      · simp only [hn, if_false] at hg
        exact hm id g hg
    obtain ⟨i1, i2, i3⟩ := ih (mapSet m x.GroupId (newGroup x))
      (nodup_mapKeys_mapSet _ _ _ hnd) hm1
    simp only [List.foldl_cons]
    refine ⟨i1, ?_, ?_⟩
    · intro id
      rw [i2 id, mem_mapKeys_mapSet]
      simp only [List.mem_cons, exists_eq_or_imp]
      constructor
      · rintro ((h | h) | h)
        · exact Or.inr (Or.inl h.symm)
        · exact Or.inl h
        · exact Or.inr (Or.inr h)
      · rintro (h | h | h)
        · exact Or.inl (Or.inr h)
        · exact Or.inl (Or.inl h.symm)
        · exact Or.inr h
    · intro id g hg
      obtain ⟨j1, j2, j3⟩ := i3 id g hg
      refine ⟨j1, j2, ?_⟩
      rcases j3 with h | ⟨y, hy, hyid, hyn⟩
      · rw [mapGet_mapSet] at h
        by_cases hn : x.GroupId = id
        · simp only [hn, if_true, Option.some.injEq] at h
          right
          exact ⟨x, List.mem_cons_self _ _, hn, by rw [← h]; rfl⟩
        · simp only [hn, if_false] at h
          exact Or.inl h
      · exact Or.inr ⟨y, List.mem_cons_of_mem _ hy, hyid, hyn⟩

theorem initMaps_group_spec (ug : List db.userGroup) :
    (mapKeys (initMaps ug).2).Nodup ∧
    (∀ id, id ∈ mapKeys (initMaps ug).2 ↔ ∃ x ∈ ug, x.GroupId = id) ∧
    (∀ id g, mapGet (initMaps ug).2 id = some g →
      g.GroupId = id ∧ g.Users = [] ∧ ∃ x ∈ ug, x.GroupId = id ∧ x.GroupName = g.GroupName) := by
  obtain ⟨h1, h2, h3⟩ := groupFold_spec ug [] (by simp [mapKeys])
    (by intro id g hg; simp [mapGet] at hg)
  rw [initMaps, initFold_snd]
  refine ⟨h1, ?_, ?_⟩
  · intro id
    rw [h2 id]
    simp [mapKeys]
  · intro id g hg
    obtain ⟨j1, j2, j3⟩ := h3 id g hg
    refine ⟨j1, j2, ?_⟩
    rcases j3 with h | h
    · simp [mapGet] at h
    · exact h

end handler

namespace handler

theorem addMembers_eq (mpUser : GoMap String user) (gid : Int) (us : List db.User)
    (mg : GoMap Int group) :
    us.foldlM (memberStep mpUser gid) mg =
      (us.map (fun u => (gid, u))).foldlM (fun mg gu => memberStep mpUser gu.1 mg gu.2) mg := by
  induction us generalizing mg with
  | nil => rfl
  | cons u us ih =>
    simp only [List.map_cons, List.foldlM_cons]
    cases memberStep mpUser gid mg u with
    | none => rfl
    | some m1 => exact ih m1

theorem fillGroups_eq (mpUser : GoMap String user) (ug : List db.userGroup)
    (mg : GoMap Int group) :
    fillGroups mpUser ug mg =
      (memberPairs ug).foldlM (fun mg gu => memberStep mpUser gu.1 mg gu.2) mg := by
  induction ug generalizing mg with
  | nil => rfl
  | cons x xs ih =>
    simp only [fillGroups, memberPairs, List.flatMap_cons, List.foldlM_cons,
      List.foldlM_append] at ih ⊢
    rw [addMembers, addMembers_eq]
    cases (x.Users.map (fun u => (x.GroupId, u))).foldlM
        (fun mg gu => memberStep mpUser gu.1 mg gu.2) mg with
    | none => rfl
    | some m1 => exact ih m1

theorem memberStep_update (mpUser : GoMap String user) (mg : GoMap Int group)
    (gu : Int × db.User) (g : group) (r : user)
    (hg : mapGet mg gu.1 = some g) (hr : mapGet mpUser gu.2.Username = some r) :
    memberStep mpUser gu.1 mg gu.2 = some (mapSet mg gu.1 (appendMember mpUser g gu)) := by
  simp [memberStep, appendMember, hg, hr]

theorem appendMember_foldl (mpUser : GoMap String user) (ps : List (Int × db.User))
    (g : group) :
    (ps.foldl (appendMember mpUser) g).GroupId = g.GroupId ∧
    (ps.foldl (appendMember mpUser) g).GroupName = g.GroupName ∧
    (ps.foldl (appendMember mpUser) g).Users =
      g.Users ++ ps.filterMap (fun gu => mapGet mpUser gu.2.Username) := by
  induction ps generalizing g with
  | nil => simp
  | cons p ps ih =>
    obtain ⟨i1, i2, i3⟩ := ih (appendMember mpUser g p)
    rw [List.foldl_cons, i1, i2, i3]
    cases hr : mapGet mpUser p.2.Username with
    | none => simp [appendMember, hr, List.filterMap_cons]
    | some r => simp [appendMember, hr, List.filterMap_cons]

theorem mem_memberPairs (ug : List db.userGroup) (gu : Int × db.User) :
    gu ∈ memberPairs ug ↔ ∃ x ∈ ug, x.GroupId = gu.1 ∧ gu.2 ∈ x.Users := by
  simp only [memberPairs, List.mem_flatMap, List.mem_map]
  constructor
  · rintro ⟨x, hx, u, hu, rfl⟩
    exact ⟨x, hx, rfl, hu⟩
  · rintro ⟨x, hx, hid, hu⟩
    exact ⟨x, hx, gu.2, hu, by rw [hid]⟩

/-- The loop of lines 234-238 never panics when every member has a record in
`mpUser`; it leaves at every group id the records of the members of the input
groups of that id, in input order. -/
theorem fillGroups_spec (mpUser : GoMap String user) (ug : List db.userGroup)
    (hu : ∀ x ∈ ug, ∀ u ∈ x.Users, u.Username ∈ mapKeys mpUser) :
    ∃ mg, fillGroups mpUser ug (initMaps ug).2 = some mg ∧
      (mapKeys mg).Nodup ∧
      (∀ id, id ∈ mapKeys mg ↔ ∃ x ∈ ug, x.GroupId = id) ∧
      (∀ id g, mapGet mg id = some g →
        g.GroupId = id ∧ (∃ x ∈ ug, x.GroupId = id ∧ x.GroupName = g.GroupName) ∧
        g.Users = ((memberPairs ug).filter (fun gu => decide (gu.1 = id))).filterMap
          (fun gu => mapGet mpUser gu.2.Username)) := by
  obtain ⟨g1, g2, g3⟩ := initMaps_group_spec ug
  obtain ⟨mg, h1, h2, h3⟩ := foldlM_update
    (fun mg gu => memberStep mpUser gu.1 mg gu.2) (fun gu : Int × db.User => gu.1)
    (appendMember mpUser) (memberPairs ug)
    (by
      intro m gu g hgu hg
      obtain ⟨x, hx, _, hxu⟩ := (mem_memberPairs ug gu).1 hgu
      obtain ⟨r, hr⟩ := (mapGet_isSome_iff mpUser gu.2.Username).2 (hu x hx gu.2 hxu)
      exact memberStep_update mpUser m gu g r hg hr)
    (initMaps ug).2
    (by
      intro gu hgu
      obtain ⟨x, hx, hid, _⟩ := (mem_memberPairs ug gu).1 hgu
      exact (g2 gu.1).2 ⟨x, hx, hid⟩)
  refine ⟨mg, by rw [fillGroups_eq]; exact h1, by rw [h2]; exact g1, ?_, ?_⟩
  · intro id; rw [h2]; exact g2 id
  · intro id g hg
    have hid : id ∈ mapKeys (initMaps ug).2 := by
      rw [← h2]; exact mem_mapKeys_of_mapGet mg id g hg
    obtain ⟨g0, hg0⟩ := (mapGet_isSome_iff _ id).2 hid
    obtain ⟨j1, j2, j3⟩ := g3 id g0 hg0
    have := h3 id g0 hg0
    rw [hg] at this
    have hgeq := Option.some.inj this
    obtain ⟨a1, a2, a3⟩ := appendMember_foldl mpUser
      ((memberPairs ug).filter (fun gu => decide (gu.1 = id))) g0
    rw [hgeq]
    refine ⟨a1.trans j1, ?_, ?_⟩
    · obtain ⟨x, hx, hxid, hxn⟩ := j3
      exact ⟨x, hx, hxid, by rw [a2]; exact hxn⟩
    · rw [a3, j2]; rfl

/-- When the aggregation does not panic, the map it leaves holds one entry per
group id of the input, named after an input group of that id; the users of an
entry are records held by the user map after the awards, one per member of the
input groups of that id, in input order. -/
theorem aggregate_some (ug : List db.userGroup) (ua : List db.Award)
    (mg : GoMap Int group) (h : aggregate ug ua = some mg) :
    ∃ mpUser, ua.foldlM awardStep (initMaps ug).1 = some mpUser ∧
      mapKeys mpUser = mapKeys (initMaps ug).1 ∧
      (mapKeys mg).Nodup ∧
      (∀ id, id ∈ mapKeys mg ↔ ∃ x ∈ ug, x.GroupId = id) ∧
      (∀ id g, mapGet mg id = some g →
        g.GroupId = id ∧ (∃ x ∈ ug, x.GroupId = id ∧ x.GroupName = g.GroupName) ∧
        g.Users = ((memberPairs ug).filter (fun gu => decide (gu.1 = id))).filterMap
          (fun gu => mapGet mpUser gu.2.Username)) := by
  unfold aggregate at h
  cases hf : ua.foldlM awardStep (initMaps ug).1 with
  | none => rw [hf] at h; simp at h
  | some mpUser =>
    rw [hf] at h
    simp only at h
    have hkeys := foldlM_keys awardStep awardStep_keys ua _ _ hf
    obtain ⟨mg2, f1, f2, f3, f4⟩ := fillGroups_spec mpUser ug (by
      intro x hx u hu
      rw [hkeys]
      exact (initMaps_user_keys ug u.Username).2 ⟨x, hx, u, hu, rfl⟩)
    rw [f1] at h
    have : mg2 = mg := Option.some.inj h
    subst this
    exact ⟨mpUser, rfl, hkeys, f2, f3, f4⟩

/-- The aggregation panics exactly when the loop over the awards does. -/
theorem aggregate_isSome (ug : List db.userGroup) (ua : List db.Award)
    (mpUser : GoMap String user) (hf : ua.foldlM awardStep (initMaps ug).1 = some mpUser) :
    ∃ mg, aggregate ug ua = some mg := by
  have hkeys := foldlM_keys awardStep awardStep_keys ua _ _ hf
  obtain ⟨mg2, f1, _⟩ := fillGroups_spec mpUser ug (by
    intro x hx u hu
    rw [hkeys]
    exact (initMaps_user_keys ug u.Username).2 ⟨x, hx, u, hu, rfl⟩)
  exact ⟨mg2, by simp [aggregate, hf, f1]⟩

end handler

/-! ### Stable sorting by a string key -/

theorem SliceStable_perm {α : Type} (less : α → α → Bool) (l : List α) :
    (sort.SliceStable less l).Perm l :=
  List.perm_insertionSort _ l

theorem SliceStable_sorted_desc {α : Type} (f : α → String) (l : List α) :
    List.Sorted (fun a b => f b ≤ f a)
      (sort.SliceStable (fun a b => strLess (f b) (f a)) l) := by
  haveI : IsTotal α (fun a b => strLess (f a) (f b) = false) :=
    ⟨fun a b => by
      simp only [strLess_eq_false_iff]
      exact le_total (f b) (f a)⟩
  haveI : IsTrans α (fun a b => strLess (f a) (f b) = false) :=
    ⟨fun a b c hab hbc => by
      simp only [strLess_eq_false_iff] at hab hbc ⊢
      exact le_trans hbc hab⟩
  have h := List.sorted_insertionSort (fun a b => strLess (f a) (f b) = false) l
  exact List.Pairwise.imp (fun {a b} hab => (strLess_eq_false_iff (f a) (f b)).1 hab) h

theorem SliceStable_sorted_asc {α : Type} (f : α → String) (l : List α) :
    List.Sorted (fun a b => f a ≤ f b)
      (sort.SliceStable (fun a b => strLess (f a) (f b)) l) := by
  haveI : IsTotal α (fun a b => strLess (f b) (f a) = false) :=
    ⟨fun a b => by
      simp only [strLess_eq_false_iff]
      exact le_total (f a) (f b)⟩
  haveI : IsTrans α (fun a b => strLess (f b) (f a) = false) :=
    ⟨fun a b c hab hbc => by
      simp only [strLess_eq_false_iff] at hab hbc ⊢
      exact le_trans hab hbc⟩
  have h := List.sorted_insertionSort (fun a b => strLess (f b) (f a) = false) l
  exact List.Pairwise.imp (fun {a b} hab => (strLess_eq_false_iff (f b) (f a)).1 hab) h

/-- Two arrangements of the same elements, the keys of which are pairwise
distinct, sort to the same sequence. -/
theorem SliceStable_desc_eq_of_perm {α : Type} (f : α → String) (l1 l2 : List α)
    (hp : l1.Perm l2) (hd : l2.Pairwise (fun a b => f a ≠ f b)) :
    sort.SliceStable (fun a b => strLess (f b) (f a)) l1 =
      sort.SliceStable (fun a b => strLess (f b) (f a)) l2 := by
  haveI : IsAntisymm α (fun a b => f b < f a) :=
    ⟨fun a b hab hba => absurd hab (lt_asymm hba)⟩
  have hsym : ∀ {x y : α}, f x ≠ f y → f y ≠ f x := fun h e => h e.symm
  have p1 := SliceStable_perm (fun a b => strLess (f b) (f a)) l1
  have p2 := SliceStable_perm (fun a b => strLess (f b) (f a)) l2
  have d1 : (sort.SliceStable (fun a b => strLess (f b) (f a)) l1).Pairwise
      (fun a b => f a ≠ f b) :=
    ((p1.trans hp).pairwise_iff hsym).2 hd
  have d2 : (sort.SliceStable (fun a b => strLess (f b) (f a)) l2).Pairwise
      (fun a b => f a ≠ f b) :=
    (p2.pairwise_iff hsym).2 hd
  have s1 : List.Sorted (fun a b => f b < f a)
      (sort.SliceStable (fun a b => strLess (f b) (f a)) l1) :=
    List.Pairwise.imp (fun {a b} h => lt_of_le_of_ne h.1 (fun e => h.2 e.symm))
      ((SliceStable_sorted_desc f l1).and d1)
  have s2 : List.Sorted (fun a b => f b < f a)
      (sort.SliceStable (fun a b => strLess (f b) (f a)) l2) :=
    List.Pairwise.imp (fun {a b} h => lt_of_le_of_ne h.1 (fun e => h.2 e.symm))
      ((SliceStable_sorted_desc f l2).and d2)
  exact List.eq_of_perm_of_sorted (p1.trans (hp.trans p2.symm)) s1 s2

namespace handler

theorem mem_sortData (data : List group) (g : group) :
    g ∈ sortData data ↔ ∃ a ∈ data, g.GroupId = a.GroupId ∧ g.GroupName = a.GroupName ∧
      g.Users = sort.SliceStable (fun a b => strLess a.Username b.Username) a.Users := by
  simp only [sortData, List.mem_map]
  constructor
  · rintro ⟨a, ha, rfl⟩
    exact ⟨a, (SliceStable_perm _ data).mem_iff.1 ha, rfl, rfl, rfl⟩
  · rintro ⟨a, ha, h1, h2, h3⟩
    refine ⟨a, (SliceStable_perm _ data).mem_iff.2 ha, ?_⟩
    cases g
    simp only at h1 h2 h3
    simp [h1, h2, h3]

theorem sortData_sorted (data : List group) :
    List.Sorted (fun g h => h.GroupName ≤ g.GroupName) (sortData data) ∧
    (∀ g ∈ sortData data, List.Sorted (fun a b => a.Username ≤ b.Username) g.Users) ∧
    ∃ d, d.Perm data ∧
      List.Forall₂ (fun g a => g.GroupId = a.GroupId ∧ g.GroupName = a.GroupName ∧
        g.Users.Perm a.Users) (sortData data) d := by
  refine ⟨?_, ?_, ?_⟩
  · simp only [sortData, List.Sorted, List.pairwise_map]
    exact SliceStable_sorted_desc (fun g : group => g.GroupName) data
  · intro g hg
    obtain ⟨a, _, _, _, h3⟩ := (mem_sortData data g).1 hg
    rw [h3]
    exact SliceStable_sorted_asc (fun u : user => u.Username) a.Users
  · refine ⟨_, SliceStable_perm (fun a b => strLess b.GroupName a.GroupName) data, ?_⟩
    simp only [sortData, List.forall₂_map_left_iff, List.forall₂_same]
    intro a _
    exact ⟨trivial, trivial, SliceStable_perm _ a.Users⟩

/-- The records a group of the aggregated map holds are those the user map holds
for the members of the input groups of that id. -/
theorem aggregate_users_mem (ug : List db.userGroup) (mpUser : GoMap String user)
    (id : Int) (g : group)
    (hg : g.Users = ((memberPairs ug).filter (fun gu => decide (gu.1 = id))).filterMap
          (fun gu => mapGet mpUser gu.2.Username)) (r : user) :
    r ∈ g.Users ↔ ∃ x ∈ ug, x.GroupId = id ∧ ∃ u ∈ x.Users,
      mapGet mpUser u.Username = some r := by
  rw [hg, List.mem_filterMap]
  constructor
  · rintro ⟨gu, hgu, hr⟩
    obtain ⟨h1, h2⟩ := List.mem_filter.1 hgu
    obtain ⟨x, hx, hxid, hxu⟩ := (mem_memberPairs ug gu).1 h1
    have : gu.1 = id := by simpa using h2
    exact ⟨x, hx, hxid.trans this, gu.2, hxu, hr⟩
  · rintro ⟨x, hx, hxid, u, hu, hr⟩
    refine ⟨(id, u), List.mem_filter.2 ⟨(mem_memberPairs ug (id, u)).2 ⟨x, hx, hxid, hu⟩, ?_⟩, hr⟩
    simp

end handler

/-! ### getUsers: the claims -/

namespace handler

/-- After a loop over valid awards, the record of `name` carries the username
`name`, one medal count per award of `name` with that medal, and the non-empty
labels of the awards of `name`, in input order. -/
theorem awards_record (ug : List db.userGroup) (ua : List db.Award)
    (hmedal : ∀ x ∈ ua, x.Medal ≤ 3)
    (hmember : ∀ x ∈ ua, ∃ g ∈ ug, ∃ u ∈ g.Users, u.Username = x.Username) :
    ∃ mpUser, ua.foldlM awardStep (initMaps ug).1 = some mpUser ∧
      ∀ name r, mapGet mpUser name = some r →
        r.Username = name ∧
        (∀ k : Fin 3, r.Medals.get k =
          ((ua.filter (fun x => decide (x.Username = name ∧
            x.Medal = (k.val : Int) + 1))).length : Int)) ∧
        r.Awards = (ua.filter (fun x => decide (x.Username = name ∧ x.Award ≠ ""))).map
          (fun x => x.Award) := by
  obtain ⟨mpUser, hf, hkeys, hval⟩ := foldlM_update awardStep
    (fun x : db.Award => x.Username) applyAward ua
    (fun m x r hx hr => awardStep_update m x r hr (hmedal x hx))
    (initMaps ug).1
    (fun x hx => (initMaps_user_keys ug x.Username).2 (hmember x hx))
  refine ⟨mpUser, hf, ?_⟩
  intro name r hr
  have hk : name ∈ mapKeys (initMaps ug).1 := by
    rw [← hkeys]; exact mem_mapKeys_of_mapGet _ _ _ hr
  obtain ⟨r0, hr0⟩ := (mapGet_isSome_iff _ name).2 hk
  obtain ⟨f1, f2, f3⟩ := initMaps_user_fresh ug name r0 hr0
  have hreq := hval name r0 hr0
  rw [hr] at hreq
  have hreq := Option.some.inj hreq
  obtain ⟨a1, a2, a3⟩ := applyAward_foldl
    (ua.filter (fun x => decide (x.Username = name))) r0
    (fun x hx => hmedal x (List.mem_of_mem_filter hx))
  subst hreq
  refine ⟨a1.trans f1, ?_, ?_⟩
  · intro k
    rw [a2 k, f3, List.filter_filter]
    have h0 : Int3.zero.get k = 0 := by fin_cases k <;> rfl
    rw [h0, zero_add]
    congr 2
    apply List.filter_congr
    intro x _
    by_cases hx1 : x.Username = name <;> by_cases hx2 : x.Medal = (k.val : Int) + 1 <;>
      simp [hx1, hx2]
  · rw [a3, f2, List.filter_filter, List.nil_append]
    congr 1
    apply List.filter_congr
    intro x _
    by_cases hx1 : x.Username = name <;> by_cases hx2 : x.Award = "" <;> simp [hx1, hx2]

/-- C4: when every award has a medal between 0 and 3 and names a member of some
input group, `getUsers` returns a roster; every record `r` it emits has, for
each `k` in 0..2, `Medals[k]` equal to the number of awards of `r.Username` with
medal `k+1`, and `Awards` equal to the non-empty labels of the awards of
`r.Username` in input order; and every member of every input group has a record
in the emitted group of that id. -/
theorem getUsers_medals (rangeOrder : List group → List group)
    (userGroup : List db.userGroup) (userAward : List db.Award)
    (hperm : ∀ l, (rangeOrder l).Perm l)
    (hmedal : ∀ x ∈ userAward, 0 ≤ x.Medal ∧ x.Medal ≤ 3)
    (hmember : ∀ x ∈ userAward, ∃ g ∈ userGroup, ∃ u ∈ g.Users, u.Username = x.Username) :
    ∃ out, getUsers rangeOrder userGroup userAward = some out ∧
      (∀ g ∈ out, ∀ r ∈ g.Users,
        (∀ k : Fin 3, r.Medals.get k =
          ((userAward.filter (fun x => decide (x.Username = r.Username ∧
            x.Medal = (k.val : Int) + 1))).length : Int)) ∧
        r.Awards = (userAward.filter
          (fun x => decide (x.Username = r.Username ∧ x.Award ≠ ""))).map (fun x => x.Award)) ∧
      (∀ x ∈ userGroup, ∀ u ∈ x.Users,
        ∃ g ∈ out, g.GroupId = x.GroupId ∧ ∃ r ∈ g.Users, r.Username = u.Username) := by
  obtain ⟨mpUser, hf, hrec⟩ := awards_record userGroup userAward
    (fun x hx => (hmedal x hx).2) hmember
  obtain ⟨mg, hmg⟩ := aggregate_isSome userGroup userAward mpUser hf
  obtain ⟨mpUser2, hf2, hkeys, hnd, hmgk, hmgv⟩ := aggregate_some userGroup userAward mg hmg
  have hsame : mpUser2 = mpUser := by
    rw [hf] at hf2; exact (Option.some.inj hf2).symm
  subst hsame
  refine ⟨sortData (rangeOrder (mapValues mg)), by simp [getUsers, hmg], ?_, ?_⟩
  · intro g hg r hr
    obtain ⟨a, ha, _, _, h3⟩ := (mem_sortData _ g).1 hg
    have har : r ∈ a.Users := by
      rw [h3] at hr
      exact (SliceStable_perm _ a.Users).mem_iff.1 hr
    have hav : a ∈ mapValues mg := (hperm _).mem_iff.1 ha
    obtain ⟨id, hid⟩ := (mem_mapValues_iff mg hnd a).1 hav
    obtain ⟨_, _, hus⟩ := hmgv id a hid
    obtain ⟨x, _, _, u, _, hur⟩ := (aggregate_users_mem userGroup mpUser2 id a hus r).1 har
    obtain ⟨e1, e2, e3⟩ := hrec u.Username r hur
    rw [e1]
    exact ⟨e2, e3⟩
  · intro x hx u hu
    obtain ⟨a, ha⟩ := (mapGet_isSome_iff mg x.GroupId).2 ((hmgk x.GroupId).2 ⟨x, hx, rfl⟩)
    obtain ⟨a1, _, hus⟩ := hmgv x.GroupId a ha
    have huk : u.Username ∈ mapKeys mpUser2 := by
      rw [hkeys]; exact (initMaps_user_keys userGroup u.Username).2 ⟨x, hx, u, hu, rfl⟩
    obtain ⟨r, hr⟩ := (mapGet_isSome_iff mpUser2 u.Username).2 huk
    have har : r ∈ a.Users :=
      (aggregate_users_mem userGroup mpUser2 x.GroupId a hus r).2 ⟨x, hx, rfl, u, hu, hr⟩
    have hav : a ∈ rangeOrder (mapValues mg) :=
      (hperm _).mem_iff.2 ((mem_mapValues_iff mg hnd a).2 ⟨x.GroupId, ha⟩)
    refine ⟨group.mk a.GroupId a.GroupName
        (sort.SliceStable (fun a b => strLess a.Username b.Username) a.Users),
      (mem_sortData _ _).2 ⟨a, hav, rfl, rfl, rfl⟩, a1, r, ?_, (hrec u.Username r hr).1⟩
    exact (SliceStable_perm _ a.Users).mem_iff.2 har

/-- C5: whenever `getUsers` returns a roster, its groups are in descending
order of `GroupName`, the users of every group are in ascending order of
`Username`, and the roster is a rearrangement of the aggregated groups: the same
groups (id and name) as in `mpGroup`, each with a permutation of its aggregated
users. -/
theorem getUsers_sorted (rangeOrder : List group → List group)
    (userGroup : List db.userGroup) (userAward : List db.Award) (out : List group)
    (hperm : ∀ l, (rangeOrder l).Perm l)
    (h : getUsers rangeOrder userGroup userAward = some out) :
    List.Sorted (fun g h => h.GroupName ≤ g.GroupName) out ∧
    (∀ g ∈ out, List.Sorted (fun a b => a.Username ≤ b.Username) g.Users) ∧
    ∃ mpGroup, aggregate userGroup userAward = some mpGroup ∧
      ∃ d, d.Perm (mapValues mpGroup) ∧
        List.Forall₂ (fun g a => g.GroupId = a.GroupId ∧ g.GroupName = a.GroupName ∧
          g.Users.Perm a.Users) out d := by
  unfold getUsers at h
  cases hmg : aggregate userGroup userAward with
  | none => rw [hmg] at h; simp at h
  | some mg =>
    rw [hmg] at h
    have hout : sortData (rangeOrder (mapValues mg)) = out := Option.some.inj h
    obtain ⟨s1, s2, d, hd, s3⟩ := sortData_sorted (rangeOrder (mapValues mg))
    rw [hout] at s1 s2 s3
    exact ⟨s1, s2, mg, rfl, d, hd.trans (hperm _), s3⟩

/-- An award that changes something (a medal above 0 or a non-empty label) and
names a user who is a member of no input group makes `getUsers` panic. -/
theorem getUsers_none_of_stranger (rangeOrder : List group → List group)
    (userGroup : List db.userGroup) (userAward : List db.Award)
    (h : ∃ x ∈ userAward, (x.Medal > 0 ∨ x.Award.length > 0) ∧
      ∀ g ∈ userGroup, ∀ u ∈ g.Users, u.Username ≠ x.Username) :
    getUsers rangeOrder userGroup userAward = none := by
  obtain ⟨x, hx, hxe, hxs⟩ := h
  have hk : x.Username ∉ mapKeys (initMaps userGroup).1 := by
    rw [initMaps_user_keys]
    rintro ⟨g, hg, u, hu, e⟩
    exact hxs g hg u hu e
  have := awards_foldlM_none userAward (initMaps userGroup).1 ⟨x, hx, hk, hxe⟩
  simp [getUsers, aggregate, this]

end handler

namespace handler

/-- C6, the code at the failing input: an award with a medal for `carol`, who is
a member of no input group, makes `getUsers` panic (nil pointer dereference at
line 228), while the same input without that award gives the roster. -/
theorem getUsers_stranger_award_panics :
    getUsers id [⟨1, "2020", [⟨"alice", "A", 0, true, false, "", "", "", ""⟩]⟩]
        [⟨"carol", 1, "Gold", 1⟩] = none ∧
    getUsers id [⟨1, "2020", [⟨"alice", "A", 0, true, false, "", "", "", ""⟩]⟩] [] =
      some [⟨1, "2020", [⟨"alice", "A", 0, [], ⟨0, 0, 0⟩⟩]⟩] := by
  decide

/-- The aggregation keeps a group that has a user: when every group in
`userGroup` has at least one user, every group of the emitted roster has at
least one user. -/
theorem getUsers_groups_nonempty (rangeOrder : List group → List group)
    (userGroup : List db.userGroup) (userAward : List db.Award) (out : List group)
    (hperm : ∀ l, (rangeOrder l).Perm l)
    (hne : ∀ x ∈ userGroup, x.Users ≠ [])
    (h : getUsers rangeOrder userGroup userAward = some out) :
    ∀ g ∈ out, g.Users ≠ [] := by
  unfold getUsers at h
  cases hmg : aggregate userGroup userAward with
  | none => rw [hmg] at h; simp at h
  | some mg =>
    rw [hmg] at h
    have hout : sortData (rangeOrder (mapValues mg)) = out := Option.some.inj h
    obtain ⟨mpUser, _, hkeys, hnd, hmgk, hmgv⟩ := aggregate_some userGroup userAward mg hmg
    intro g hg
    rw [← hout] at hg
    obtain ⟨a, ha, _, _, h3⟩ := (mem_sortData _ g).1 hg
    have hav : a ∈ mapValues mg := (hperm _).mem_iff.1 ha
    obtain ⟨id, hid⟩ := (mem_mapValues_iff mg hnd a).1 hav
    obtain ⟨_, _, hus⟩ := hmgv id a hid
    obtain ⟨x, hx, hxid⟩ := (hmgk id).1 (mem_mapKeys_of_mapGet mg id a hid)
    obtain ⟨u, hu⟩ := List.exists_mem_of_ne_nil _ (hne x hx)
    have huk : u.Username ∈ mapKeys mpUser := by
      rw [hkeys]; exact (initMaps_user_keys userGroup u.Username).2 ⟨x, hx, u, hu, rfl⟩
    obtain ⟨r, hr⟩ := (mapGet_isSome_iff mpUser u.Username).2 huk
    have har : r ∈ a.Users :=
      (aggregate_users_mem userGroup mpUser id a hus r).2 ⟨x, hx, hxid, u, hu, hr⟩
    have hgr : r ∈ g.Users := by
      rw [h3]; exact (SliceStable_perm _ a.Users).mem_iff.2 har
    exact List.ne_nil_of_mem hgr

/-- C10 as stated fails: two groups of different ids and the same name come out
in the order in which `range mpGroup` visits them. -/
theorem getUsers_depends_on_rangeOrder :
    (∀ l : List group, (id l).Perm l) ∧ (∀ l : List group, (List.reverse l).Perm l) ∧
    getUsers id
        [⟨1, "2020", [⟨"bob", "B", 0, true, false, "", "", "", ""⟩]⟩,
         ⟨2, "2020", [⟨"alice", "A", 0, true, false, "", "", "", ""⟩]⟩] [] ≠
      getUsers List.reverse
        [⟨1, "2020", [⟨"bob", "B", 0, true, false, "", "", "", ""⟩]⟩,
         ⟨2, "2020", [⟨"alice", "A", 0, true, false, "", "", "", ""⟩]⟩] [] :=
  ⟨fun l => List.Perm.refl l, fun l => List.reverse_perm l, by decide⟩

/-- C10 amended: when input groups of the same name have the same id, the roster
`getUsers` emits (or its panic) is the same for every two orders in which
`range mpGroup` may visit the map. -/
theorem getUsers_deterministic (order1 order2 : List group → List group)
    (userGroup : List db.userGroup) (userAward : List db.Award)
    (hperm1 : ∀ l, (order1 l).Perm l) (hperm2 : ∀ l, (order2 l).Perm l)
    (hnames : ∀ x ∈ userGroup, ∀ y ∈ userGroup,
      x.GroupName = y.GroupName → x.GroupId = y.GroupId) :
    getUsers order1 userGroup userAward = getUsers order2 userGroup userAward := by
  unfold getUsers
  cases hmg : aggregate userGroup userAward with
  | none => rfl
  | some mg =>
    obtain ⟨mpUser, _, _, hnd, _, hmgv⟩ := aggregate_some userGroup userAward mg hmg
    have hpw : (mapValues mg).Pairwise (fun a b => a.GroupName ≠ b.GroupName) := by
      rw [mapValues, List.pairwise_map]
      have hk : mg.Pairwise (fun p q => p.1 ≠ q.1) := by
        have := hnd
        rwa [mapKeys, List.Nodup, List.pairwise_map] at this
      refine List.Pairwise.imp_of_mem ?_ hk
      intro p q hp hq hpq hname
      have hp2 := (mem_iff_mapGet mg hnd p.1 p.2).1 hp
      have hq2 := (mem_iff_mapGet mg hnd q.1 q.2).1 hq
      obtain ⟨_, ⟨x, hx, hxid, hxn⟩, _⟩ := hmgv p.1 p.2 hp2
      obtain ⟨_, ⟨y, hy, hyid, hyn⟩, _⟩ := hmgv q.1 q.2 hq2
      have := hnames x hx y hy (by rw [hxn, hyn, hname])
      exact hpq (by rw [← hxid, ← hyid, this])
    have hpw2 : (order2 (mapValues mg)).Pairwise (fun a b => a.GroupName ≠ b.GroupName) :=
      ((hperm2 _).pairwise_iff (fun h e => h e.symm)).2 hpw
    have := SliceStable_desc_eq_of_perm (fun g : group => g.GroupName)
      (order1 (mapValues mg)) (order2 (mapValues mg))
      ((hperm1 _).trans (hperm2 _).symm) hpw2
    simp only [sortData, this]

/-- C4 at the example of the specification: alice has one gold medal and the
label "Gold", bob has an award without medal or label. -/
theorem getUsers_medals_witness :
    (∀ l : List group, (id l).Perm l) ∧
    (∀ x ∈ ([⟨"alice", 1, "Gold", 1⟩, ⟨"bob", 0, "", 1⟩] : List db.Award),
      0 ≤ x.Medal ∧ x.Medal ≤ 3) ∧
    ∃ out, getUsers id
        [⟨1, "A", [⟨"alice", "A", 0, true, false, "", "", "", ""⟩,
                   ⟨"bob", "B", 0, true, false, "", "", "", ""⟩]⟩]
        [⟨"alice", 1, "Gold", 1⟩, ⟨"bob", 0, "", 1⟩] = some out ∧
      (∀ g ∈ out, ∀ r ∈ g.Users,
        (∀ k : Fin 3, r.Medals.get k =
          ((([⟨"alice", 1, "Gold", 1⟩, ⟨"bob", 0, "", 1⟩] : List db.Award).filter
            (fun x => decide (x.Username = r.Username ∧
              x.Medal = (k.val : Int) + 1))).length : Int)) ∧
        r.Awards = (([⟨"alice", 1, "Gold", 1⟩, ⟨"bob", 0, "", 1⟩] : List db.Award).filter
          (fun x => decide (x.Username = r.Username ∧ x.Award ≠ ""))).map (fun x => x.Award)) ∧
      (∀ x ∈ ([⟨1, "A", [⟨"alice", "A", 0, true, false, "", "", "", ""⟩,
                   ⟨"bob", "B", 0, true, false, "", "", "", ""⟩]⟩] : List db.userGroup),
        ∀ u ∈ x.Users,
        ∃ g ∈ out, g.GroupId = x.GroupId ∧ ∃ r ∈ g.Users, r.Username = u.Username) :=
  ⟨fun l => List.Perm.refl l, by decide,
    getUsers_medals id _ _ (fun l => List.Perm.refl l) (by decide) (by decide)⟩

/-- C5 at a concrete roster: two groups and three members come out with the
groups by name descending and the users by username ascending. -/
theorem getUsers_sorted_witness :
    getUsers id
        [⟨1, "2019", [⟨"bob", "B", 0, true, false, "", "", "", ""⟩,
                      ⟨"alice", "A", 0, true, false, "", "", "", ""⟩]⟩,
         ⟨2, "2020", [⟨"carol", "C", 0, true, false, "", "", "", ""⟩]⟩] [] =
      some [⟨2, "2020", [⟨"carol", "C", 0, [], ⟨0, 0, 0⟩⟩]⟩,
            ⟨1, "2019", [⟨"alice", "A", 0, [], ⟨0, 0, 0⟩⟩, ⟨"bob", "B", 0, [], ⟨0, 0, 0⟩⟩]⟩] ∧
    List.Sorted (fun g h => h.GroupName ≤ g.GroupName)
      ([⟨2, "2020", [⟨"carol", "C", 0, [], ⟨0, 0, 0⟩⟩]⟩,
        ⟨1, "2019", [⟨"alice", "A", 0, [], ⟨0, 0, 0⟩⟩, ⟨"bob", "B", 0, [], ⟨0, 0, 0⟩⟩]⟩] :
        List group) :=
  ⟨by decide,
    (getUsers_sorted id
      [⟨1, "2019", [⟨"bob", "B", 0, true, false, "", "", "", ""⟩,
                    ⟨"alice", "A", 0, true, false, "", "", "", ""⟩]⟩,
       ⟨2, "2020", [⟨"carol", "C", 0, true, false, "", "", "", ""⟩]⟩] [] _
      (fun l => List.Perm.refl l) (by decide)).1⟩

/-- C10 amended, at two groups of different names visited in the two possible
orders. -/
theorem getUsers_deterministic_witness :
    (∀ x ∈ ([⟨1, "2019", [⟨"bob", "B", 0, true, false, "", "", "", ""⟩]⟩,
             ⟨2, "2020", [⟨"alice", "A", 0, true, false, "", "", "", ""⟩]⟩] : List db.userGroup),
      ∀ y ∈ ([⟨1, "2019", [⟨"bob", "B", 0, true, false, "", "", "", ""⟩]⟩,
             ⟨2, "2020", [⟨"alice", "A", 0, true, false, "", "", "", ""⟩]⟩] : List db.userGroup),
      x.GroupName = y.GroupName → x.GroupId = y.GroupId) ∧
    getUsers id
        [⟨1, "2019", [⟨"bob", "B", 0, true, false, "", "", "", ""⟩]⟩,
         ⟨2, "2020", [⟨"alice", "A", 0, true, false, "", "", "", ""⟩]⟩] [] =
      getUsers List.reverse
        [⟨1, "2019", [⟨"bob", "B", 0, true, false, "", "", "", ""⟩]⟩,
         ⟨2, "2020", [⟨"alice", "A", 0, true, false, "", "", "", ""⟩]⟩] [] :=
  ⟨by decide,
    getUsers_deterministic id List.reverse _ [] (fun l => List.Perm.refl l)
      (fun l => List.reverse_perm l) (by decide)⟩

end handler

/-! ### GetOfficialUsers -/

namespace db

theorem initGrp_fold_spec (groups : List userGroup) (m : GoMap Int userGroup)
    (hnd : (mapKeys m).Nodup)
    (hm : ∀ id g, mapGet m id = some g → g.GroupId = id ∧ g.Users = []) :
    (mapKeys (groups.foldl (fun grp row => mapSet grp row.GroupId (newGrp row)) m)).Nodup ∧
    (∀ id, id ∈ mapKeys (groups.foldl (fun grp row => mapSet grp row.GroupId (newGrp row)) m) ↔
      id ∈ mapKeys m ∨ ∃ row ∈ groups, row.GroupId = id) ∧
    (∀ id g, mapGet (groups.foldl (fun grp row => mapSet grp row.GroupId (newGrp row)) m) id
        = some g →
      g.GroupId = id ∧ g.Users = [] ∧
        (mapGet m id = some g ∨ ∃ row ∈ groups, row.GroupId = id ∧ row.GroupName = g.GroupName))
    := by
  induction groups generalizing m with
  | nil =>
    refine ⟨by simpa using hnd, by simp, ?_⟩
    intro id g hg
    exact ⟨(hm id g hg).1, (hm id g hg).2, Or.inl hg⟩
  | cons x xs ih =>
    have hm1 : ∀ id g, mapGet (mapSet m x.GroupId (newGrp x)) id = some g →
        g.GroupId = id ∧ g.Users = [] := by
      intro id g hg
      rw [mapGet_mapSet] at hg
      by_cases hn : x.GroupId = id
      · simp only [hn, if_true, Option.some.injEq] at hg
        subst hg
        exact ⟨hn, rfl⟩
      · simp only [hn, if_false] at hg
        exact hm id g hg
    obtain ⟨i1, i2, i3⟩ := ih (mapSet m x.GroupId (newGrp x))
      (nodup_mapKeys_mapSet _ _ _ hnd) hm1
    simp only [List.foldl_cons]
    refine ⟨i1, ?_, ?_⟩
    · intro id
      rw [i2 id, mem_mapKeys_mapSet]
      simp only [List.mem_cons, exists_eq_or_imp]
      constructor
      · rintro ((h | h) | h)
        · exact Or.inr (Or.inl h.symm)
        · exact Or.inl h
        · exact Or.inr (Or.inr h)
      · rintro (h | h | h)
        · exact Or.inl (Or.inr h)
        · exact Or.inl (Or.inl h.symm)
        · exact Or.inr h
    · intro id g hg
      obtain ⟨j1, j2, j3⟩ := i3 id g hg
      refine ⟨j1, j2, ?_⟩
      rcases j3 with h | ⟨y, hy, hyid, hyn⟩
      · rw [mapGet_mapSet] at h
        by_cases hn : x.GroupId = id
        · simp only [hn, if_true, Option.some.injEq] at h
          right
          exact ⟨x, List.mem_cons_self _ _, hn, by rw [← h]; rfl⟩
        · simp only [hn, if_false] at h
          exact Or.inl h
      · exact Or.inr ⟨y, List.mem_cons_of_mem _ hy, hyid, hyn⟩

theorem initGrp_spec (groups : List userGroup) :
    (mapKeys (initGrp groups)).Nodup ∧
    (∀ id, id ∈ mapKeys (initGrp groups) ↔ ∃ row ∈ groups, row.GroupId = id) ∧
    (∀ id g, mapGet (initGrp groups) id = some g →
      g.GroupId = id ∧ g.Users = [] ∧
        ∃ row ∈ groups, row.GroupId = id ∧ row.GroupName = g.GroupName) := by
  obtain ⟨h1, h2, h3⟩ := initGrp_fold_spec groups [] (by simp [mapKeys])
    (by intro id g hg; simp [mapGet] at hg)
  refine ⟨h1, ?_, ?_⟩
  · intro id
    rw [initGrp, h2 id]
    simp [mapKeys]
  · intro id g hg
    obtain ⟨j1, j2, j3⟩ := h3 id g hg
    refine ⟨j1, j2, ?_⟩
    rcases j3 with h | h
    · simp [mapGet] at h
    · exact h

theorem addMember_update (grp : GoMap Int userGroup) (x : memberRow) (g : userGroup)
    (hg : mapGet grp x.GroupId = some g) :
    addMember grp x =
      some (mapSet grp x.GroupId
        (userGroup.mk g.GroupId g.GroupName (g.Users ++ [memberUser x]))) := by
  simp [addMember, hg]

theorem appendUsers_foldl (xs : List memberRow) (g : userGroup) :
    (xs.foldl (fun g x => userGroup.mk g.GroupId g.GroupName (g.Users ++ [memberUser x]))
        g).GroupId = g.GroupId ∧
    (xs.foldl (fun g x => userGroup.mk g.GroupId g.GroupName (g.Users ++ [memberUser x]))
        g).GroupName = g.GroupName ∧
    (xs.foldl (fun g x => userGroup.mk g.GroupId g.GroupName (g.Users ++ [memberUser x]))
        g).Users = g.Users ++ xs.map memberUser := by
  induction xs generalizing g with
  | nil => simp
  | cons x xs ih =>
    obtain ⟨i1, i2, i3⟩ := ih (userGroup.mk g.GroupId g.GroupName (g.Users ++ [memberUser x]))
    rw [List.foldl_cons, i1, i2, i3]
    simp

/-- The map `grp` after the two loops of `GetOfficialUsers`, when every
membership row names a group row: one entry per group id, named after a group
row of that id, holding the users of the membership rows of that id, in row
order. -/
theorem grp_spec (groups : List userGroup) (data : List memberRow)
    (hfk : ∀ x ∈ data, ∃ row ∈ groups, row.GroupId = x.GroupId) :
    ∃ grp, data.foldlM addMember (initGrp groups) = some grp ∧
      (mapKeys grp).Nodup ∧
      (∀ id, id ∈ mapKeys grp ↔ ∃ row ∈ groups, row.GroupId = id) ∧
      (∀ id g, mapGet grp id = some g →
        g.GroupId = id ∧
        (∃ row ∈ groups, row.GroupId = id ∧ row.GroupName = g.GroupName) ∧
        g.Users = (data.filter (fun x => decide (x.GroupId = id))).map memberUser) := by
  obtain ⟨g1, g2, g3⟩ := initGrp_spec groups
  obtain ⟨grp, h1, h2, h3⟩ := foldlM_update addMember (fun x : memberRow => x.GroupId)
    (fun g x => userGroup.mk g.GroupId g.GroupName (g.Users ++ [memberUser x])) data
    (fun m x g _ hg => addMember_update m x g hg)
    (initGrp groups)
    (fun x hx => (g2 x.GroupId).2 (hfk x hx))
  refine ⟨grp, h1, by rw [h2]; exact g1, ?_, ?_⟩
  · intro id; rw [h2]; exact g2 id
  · intro id g hg
    have hid : id ∈ mapKeys (initGrp groups) := by
      rw [← h2]; exact mem_mapKeys_of_mapGet grp id g hg
    obtain ⟨g0, hg0⟩ := (mapGet_isSome_iff _ id).2 hid
    obtain ⟨j1, j2, j3⟩ := g3 id g0 hg0
    have := h3 id g0 hg0
    rw [hg] at this
    have hgeq := Option.some.inj this
    obtain ⟨a1, a2, a3⟩ := appendUsers_foldl (data.filter (fun x => decide (x.GroupId = id))) g0
    rw [hgeq]
    refine ⟨a1.trans j1, ?_, ?_⟩
    · obtain ⟨x, hx, hxid, hxn⟩ := j3
      exact ⟨x, hx, hxid, by rw [a2]; exact hxn⟩
    · rw [a3, j2]; rfl

/-- C9: when the group id of every membership row occurs among the group rows,
`GetOfficialUsers` returns, whatever the order in which `range grp` visits the
map: groups sorted by `GroupName` descending, each group id at most once; every
returned group has a non-empty `Users`, which holds the users of the membership
rows of its id in row order, and carries the name of a group row of its id; and
the group of every membership row is returned (so the groups returned are
exactly those with at least one membership row). -/
theorem GetOfficialUsers_spec (rangeOrder : List userGroup → List userGroup)
    (groups : List userGroup) (data : List memberRow)
    (hperm : ∀ l, (rangeOrder l).Perm l)
    (hfk : ∀ x ∈ data, ∃ row ∈ groups, row.GroupId = x.GroupId) :
    ∃ out, GetOfficialUsers rangeOrder groups data = some out ∧
      List.Sorted (fun g h => h.GroupName ≤ g.GroupName) out ∧
      (out.map (fun g => g.GroupId)).Nodup ∧
      (∀ g ∈ out, g.Users ≠ [] ∧
        g.Users = (data.filter (fun x => decide (x.GroupId = g.GroupId))).map memberUser ∧
        ∃ row ∈ groups, row.GroupId = g.GroupId ∧ row.GroupName = g.GroupName) ∧
      (∀ x ∈ data, ∃ g ∈ out, g.GroupId = x.GroupId) := by
  obtain ⟨grp, hgrp, hnd, hk, hv⟩ := grp_spec groups data hfk
  have hmem : ∀ g, g ∈ sort.SliceStable (fun a b => strLess b.GroupName a.GroupName)
      ((rangeOrder (mapValues grp)).filter (fun v => decide (v.Users.length > 0))) ↔
      g ∈ mapValues grp ∧ g.Users ≠ [] := by
    intro g
    rw [(SliceStable_perm _ _).mem_iff, List.mem_filter, (hperm _).mem_iff]
    simp [List.length_pos]
  refine ⟨sort.SliceStable (fun a b => strLess b.GroupName a.GroupName)
      ((rangeOrder (mapValues grp)).filter (fun v => decide (v.Users.length > 0))),
    by simp only [GetOfficialUsers, hgrp], ?_, ?_, ?_, ?_⟩
  · exact SliceStable_sorted_desc (fun g : userGroup => g.GroupName) _
  · rw [List.Nodup, List.pairwise_map]
    have hpw : (mapValues grp).Pairwise (fun a b => a.GroupId ≠ b.GroupId) := by
      rw [mapValues, List.pairwise_map]
      have hkk : grp.Pairwise (fun p q => p.1 ≠ q.1) := by
        have := hnd
        rwa [mapKeys, List.Nodup, List.pairwise_map] at this
      refine List.Pairwise.imp_of_mem ?_ hkk
      intro p q hp hq hpq hids
      have hp2 := (mem_iff_mapGet grp hnd p.1 p.2).1 hp
      have hq2 := (mem_iff_mapGet grp hnd q.1 q.2).1 hq
      exact hpq (by rw [← (hv p.1 p.2 hp2).1, ← (hv q.1 q.2 hq2).1, hids])
    have hsym : ∀ {x y : userGroup}, x.GroupId ≠ y.GroupId → y.GroupId ≠ x.GroupId :=
      fun h e => h e.symm
    have hpw2 := ((hperm (mapValues grp)).pairwise_iff hsym).2 hpw
    have hpw3 := hpw2.filter (fun v => decide (v.Users.length > 0))
    exact ((SliceStable_perm _ _).pairwise_iff hsym).2 hpw3
  · intro g hg
    obtain ⟨hgv, hgne⟩ := (hmem g).1 hg
    obtain ⟨id, hid⟩ := (mem_mapValues_iff grp hnd g).1 hgv
    obtain ⟨v1, v2, v3⟩ := hv id g hid
    refine ⟨hgne, by rw [v1]; exact v3, ?_⟩
    obtain ⟨row, hrow, hrid, hrn⟩ := v2
    exact ⟨row, hrow, by rw [v1]; exact hrid, hrn⟩
  · intro x hx
    obtain ⟨g, hg⟩ := (mapGet_isSome_iff grp x.GroupId).2 ((hk x.GroupId).2 (hfk x hx))
    obtain ⟨v1, _, v3⟩ := hv x.GroupId g hg
    refine ⟨g, (hmem g).2 ⟨(mem_mapValues_iff grp hnd g).2 ⟨_, hg⟩, ?_⟩, v1⟩
    rw [v3]
    apply List.ne_nil_of_mem (a := memberUser x)
    exact List.mem_map_of_mem _ (List.mem_filter.2 ⟨hx, by simp⟩)

/-- C9 at three group rows and three membership rows: group 3 has no member and
is left out, group 2 ("2020") comes before group 1 ("2019"). -/
theorem GetOfficialUsers_spec_witness :
    (∀ l : List userGroup, (id l).Perm l) ∧
    (∀ x ∈ ([⟨"a", "", 0, true, false, 2⟩, ⟨"b", "", 0, true, false, 1⟩,
             ⟨"c", "", 0, true, false, 2⟩] : List memberRow),
      ∃ row ∈ ([⟨1, "2019", []⟩, ⟨2, "2020", []⟩, ⟨3, "2021", []⟩] : List userGroup),
        row.GroupId = x.GroupId) ∧
    GetOfficialUsers id [⟨1, "2019", []⟩, ⟨2, "2020", []⟩, ⟨3, "2021", []⟩]
        [⟨"a", "", 0, true, false, 2⟩, ⟨"b", "", 0, true, false, 1⟩,
         ⟨"c", "", 0, true, false, 2⟩] =
      some [⟨2, "2020", [⟨"a", "", 0, true, false, "", "", "", ""⟩,
                         ⟨"c", "", 0, true, false, "", "", "", ""⟩]⟩,
            ⟨1, "2019", [⟨"b", "", 0, true, false, "", "", "", ""⟩]⟩] ∧
    ∃ out, GetOfficialUsers id [⟨1, "2019", []⟩, ⟨2, "2020", []⟩, ⟨3, "2021", []⟩]
        [⟨"a", "", 0, true, false, 2⟩, ⟨"b", "", 0, true, false, 1⟩,
         ⟨"c", "", 0, true, false, 2⟩] = some out ∧
      List.Sorted (fun g h => h.GroupName ≤ g.GroupName) out ∧
      (out.map (fun g => g.GroupId)).Nodup ∧
      (∀ g ∈ out, g.Users ≠ [] ∧
        g.Users = (([⟨"a", "", 0, true, false, 2⟩, ⟨"b", "", 0, true, false, 1⟩,
          ⟨"c", "", 0, true, false, 2⟩] : List memberRow).filter
            (fun x => decide (x.GroupId = g.GroupId))).map memberUser ∧
        ∃ row ∈ ([⟨1, "2019", []⟩, ⟨2, "2020", []⟩, ⟨3, "2021", []⟩] : List userGroup),
          row.GroupId = g.GroupId ∧ row.GroupName = g.GroupName) ∧
      (∀ x ∈ ([⟨"a", "", 0, true, false, 2⟩, ⟨"b", "", 0, true, false, 1⟩,
          ⟨"c", "", 0, true, false, 2⟩] : List memberRow), ∃ g ∈ out, g.GroupId = x.GroupId) :=
  ⟨fun l => List.Perm.refl l, by decide, by decide,
    GetOfficialUsers_spec id _ _ (fun l => List.Perm.refl l) (by decide)⟩

/-- Every group `GetOfficialUsers` returns has at least one user, whatever the
rows and the order in which `range grp` visits the map: lines 167-171 keep a
group only when `len(v.Users) > 0`. -/
theorem GetOfficialUsers_nonempty (rangeOrder : List userGroup → List userGroup)
    (groups : List userGroup) (data : List memberRow) (out : List userGroup)
    (h : GetOfficialUsers rangeOrder groups data = some out) :
    ∀ g ∈ out, g.Users ≠ [] := by
  unfold GetOfficialUsers at h
  cases hgrp : data.foldlM addMember (initGrp groups) with
  | none => rw [hgrp] at h; simp at h
  | some grp =>
    rw [hgrp] at h
    have hout := Option.some.inj h
    intro g hg
    rw [← hout] at hg
    have hf := (SliceStable_perm _ _).mem_iff.1 hg
    have hlen := (List.mem_filter.1 hf).2
    intro hnil
    rw [hnil] at hlen
    simp at hlen

end db

/-! ### getUsers from the rows of the database -/

namespace handler

/-- C7: for every sequence of group rows, with or without members (a group row
without membership row is a group whose user list is empty), every sequence of
membership rows and every award sequence, every group in the roster the handler
`getUsers` emits has at least one user: the groups without user are dropped by
`db.GetOfficialUsers` (line 209 of the handler, lines 167-171 of `db/user.go`),
and the aggregation keeps a user in every group it is handed. -/
theorem getUsers_no_empty_group (rangeGrp : List db.userGroup → List db.userGroup)
    (rangeOrder : List group → List group) (groups : List db.userGroup)
    (data : List db.memberRow) (userAward : List db.Award) (out : List group)
    (hperm : ∀ l, (rangeOrder l).Perm l)
    (h : getUsersOfRows rangeGrp rangeOrder groups data userAward = some out) :
    ∀ g ∈ out, g.Users ≠ [] := by
  unfold getUsersOfRows at h
  cases hug : db.GetOfficialUsers rangeGrp groups data with
  | none => rw [hug] at h; simp at h
  | some userGroup =>
    rw [hug] at h
    exact getUsers_groups_nonempty rangeOrder userGroup userAward out hperm
      (db.GetOfficialUsers_nonempty rangeGrp groups data userGroup hug) h

/-- C7 at three group rows of which two have no member: the roster holds the
one group that has a user, with its user and the medal of his award. -/
theorem getUsers_no_empty_group_witness :
    (∀ l : List group, (id l).Perm l) ∧
    getUsersOfRows id id [⟨1, "2019", []⟩, ⟨2, "2020", []⟩, ⟨3, "2021", []⟩]
        [⟨"bob", "B", 0, true, false, 2⟩] [⟨"bob", 2, "Silver", 1⟩] =
      some [⟨2, "2020", [⟨"bob", "B", 0, ["Silver"], ⟨0, 1, 0⟩⟩]⟩] ∧
    ∀ g ∈ ([⟨2, "2020", [⟨"bob", "B", 0, ["Silver"], ⟨0, 1, 0⟩⟩]⟩] : List group),
      g.Users ≠ [] :=
  ⟨fun l => List.Perm.refl l, by decide,
    getUsers_no_empty_group id id [⟨1, "2019", []⟩, ⟨2, "2020", []⟩, ⟨3, "2021", []⟩]
      [⟨"bob", "B", 0, true, false, 2⟩] [⟨"bob", 2, "Silver", 1⟩] _
      (fun l => List.Perm.refl l) (by decide)⟩

end handler
